import Mathlib

/-!
Verification of the mintmaker `doctor` package: the log classification and
compaction engine (checks.go, report.go, models.go, log_reader.go).

The Go code is shallowly embedded: each Go function becomes an executable Lean
definition over `List Char` / `String`; Go panics (failed unchecked type
assertions, out-of-range indexing) are modelled with `Except` / `Option`; the
untyped `map[string]any` values coming from JSON are modelled with the `GoVal`
sum type.
-/

set_option maxHeartbeats 1000000

namespace Doctor

/-! ### Go string primitives

`isGoSpace` is the Go `unicode.IsSpace` predicate (the Latin-1 switch plus the finite
`unicode.White_Space` table used for larger runes). -/

def isGoSpace (c : Char) : Bool :=
  c = ' ' || c = '\t' || c = '\n' || c = (Char.ofNat 11) || c = (Char.ofNat 12) ||
  c = '\r' || c = (Char.ofNat 0x85) || c = (Char.ofNat 0xA0) ||
  c = (Char.ofNat 0x1680) ||
  (0x2000 ≤ c.toNat && c.toNat ≤ 0x200A) ||
  c = (Char.ofNat 0x2028) || c = (Char.ofNat 0x2029) ||
  c = (Char.ofNat 0x202F) || c = (Char.ofNat 0x205F) || c = (Char.ofNat 0x3000)

/-- Go `strings.TrimSpace` on the underlying character list. -/
def trimSpace (l : List Char) : List Char :=
  ((l.dropWhile isGoSpace).reverse.dropWhile isGoSpace).reverse

/-- Go `strings.TrimSpace` on `String`. -/
def goTrimSpace (s : String) : String :=
  String.mk (trimSpace s.data)

/-- Go `strings.Split(s, "\n")` on the underlying character list: the list of
newline-separated segments (always nonempty, one more segment than newlines). -/
def splitNl : List Char → List (List Char)
  | [] => [[]]
  | c :: rest =>
    if c = '\n' then [] :: splitNl rest
    else
      match splitNl rest with
      | [] => [[c]]
      | l :: ls => (c :: l) :: ls

/-- Go `strings.Join(_, "\n")` on character lists. -/
def joinNl : List (List Char) → List Char
  | [] => []
  | [l] => l
  | l :: ls => l ++ '\n' :: joinNl ls

/-- Does `sub` occur as a contiguous run inside `l`? -/
def listInfixOf (sub l : List Char) : Bool :=
  match l with
  | [] => sub.isEmpty
  | _ :: rest => sub.isPrefixOf l || listInfixOf sub rest

/-- Go `strings.Contains(s, sub)`. -/
def goContains (s sub : String) : Bool :=
  listInfixOf sub.data s.data

/-- Go `strings.HasPrefix(s, pre)`. -/
def goStartsWith (s pre : String) : Bool :=
  pre.data.isPrefixOf s.data

/-- Go `strings.HasSuffix(s, suf)`. -/
def goEndsWith (s suf : String) : Bool :=
  suf.data.isSuffixOf s.data

/-- The single-quote character, as a string. -/
def sq : String :=
  String.mk [Char.ofNat 39]

/-- Go `strings.Join(l, "")`: plain concatenation. -/
def concatAll : List String → String
  | [] => ""
  | s :: rest => s ++ concatAll rest

/-- Decimal digits of a natural number, most significant first. -/
def natDigits (n : Nat) : List Char :=
  if h : n < 10 then [Char.ofNat (48 + n)]
  else natDigits (n / 10) ++ [Char.ofNat (48 + n % 10)]
decreasing_by exact Nat.div_lt_self (by omega) (by omega)

/-- Rendering of an integer by `fmt.Sprintf("%d", _)` (and of an
integer-valued float64 by `%v`). -/
def goItoa (n : Int) : String :=
  if n < 0 then String.mk ('-' :: natDigits n.natAbs)
  else String.mk (natDigits n.natAbs)

/-! ### GoVal: the untyped values held by `map[string]any` extras

JSON-decoded Go values: `str` is a `string`, `num` an integer-valued `float64`
(the only numbers the logs carry), `boolean` a `bool`, `null` the nil
interface, `arr` a `[]interface{}`, `obj` a `map[string]interface{}`. -/

inductive GoVal where
  | str (s : String)
  | num (n : Int)
  | boolean (b : Bool)
  | null
  | arr (elems : List GoVal)
  | obj (entries : List (String × GoVal))

/-- Sort key/rendered-value pairs by key, as Go does when printing or
marshaling a map (keys are unique, so stability is irrelevant). -/
def sortByKey (l : List (String × String)) : List (String × String) :=
  l.mergeSort (fun a b => decide (a.1 ≤ b.1))

/-- Join already-rendered map entries as `fmt` does: `k:v` separated by one
space. -/
def joinMapEntries : List (String × String) → String
  | [] => ""
  | [(k, v)] => k ++ ":" ++ v
  | (k, v) :: rest => k ++ ":" ++ v ++ " " ++ joinMapEntries rest

mutual
/-- Go `fmt.Sprintf("%v", v)` for a JSON-decoded value (also `%+v`, which agrees
with `%v` on these shapes). -/
def govalRender : GoVal → String
  | .str s => s
  | .num n => goItoa n
  | .boolean b => if b then "true" else "false"
  | .null => "<nil>"
  | .arr elems => "[" ++ govalRenderList elems ++ "]"
  | .obj entries => "map[" ++ joinMapEntries (sortByKey (govalRenderKVs entries)) ++ "]"

def govalRenderList : List GoVal → String
  | [] => ""
  | [v] => govalRender v
  | v :: rest => govalRender v ++ " " ++ govalRenderList rest

def govalRenderKVs : List (String × GoVal) → List (String × String)
  | [] => []
  | (k, v) :: rest => (k, govalRender v) :: govalRenderKVs rest
end

mutual
/-- Go `fmt.Sprintf("%s", v)`: identity on strings; on a non-string scalar
the bad-verb form `%!s(type=value)` (JSON numbers decode as `float64`); on a
nil interface `%!s(<nil>)`; maps and slices keep their `%v` skeleton with
the `%s` verb applied to each element (string map keys print as
themselves). -/
def govalRenderS : GoVal → String
  | .str s => s
  | .num n => "%!s(float64=" ++ goItoa n ++ ")"
  | .boolean b => "%!s(bool=" ++ (if b then "true" else "false") ++ ")"
  | .null => "%!s(<nil>)"
  | .arr elems => "[" ++ govalRenderSList elems ++ "]"
  | .obj entries => "map[" ++ joinMapEntries (sortByKey (govalRenderSKVs entries)) ++ "]"

def govalRenderSList : List GoVal → String
  | [] => ""
  | [v] => govalRenderS v
  | v :: rest => govalRenderS v ++ " " ++ govalRenderSList rest

def govalRenderSKVs : List (String × GoVal) → List (String × String)
  | [] => []
  | (k, v) :: rest => (k, govalRenderS v) :: govalRenderSKVs rest
end

/-- JSON string escaping as done by `encoding/json` (quotes, backslash,
newline/carriage-return/tab, other control characters, and the HTML-unsafe
characters which Go escapes by default). -/
def jsonEscapeChar (c : Char) : List Char :=
  if c = '"' then ['\\', '"']
  else if c = '\\' then ['\\', '\\']
  else if c = '\n' then ['\\', 'n']
  else if c = '\r' then ['\\', 'r']
  else if c = '\t' then ['\\', 't']
  else if c = '<' then "\\u003c".data
  else if c = '>' then "\\u003e".data
  else if c = '&' then "\\u0026".data
  else if c.toNat < 0x20 then
    "\\u00".data ++ [Char.ofNat (if c.toNat / 16 < 10 then 48 + c.toNat / 16 else 87 + c.toNat / 16),
                     Char.ofNat (if c.toNat % 16 < 10 then 48 + c.toNat % 16 else 87 + c.toNat % 16)]
  else [c]

def jsonQuote (s : String) : String :=
  String.mk ('"' :: s.data.flatMap jsonEscapeChar ++ ['"'])

/-- Tab indentation used by `json.MarshalIndent(v, "", "\t")`. -/
def tabs (n : Nat) : String :=
  String.mk (List.replicate n '\t')

/-- Join already-rendered, key-sorted JSON object entries with the `",\n"`
separator and per-entry indentation of `json.MarshalIndent`. -/
def joinJsonEntries (depth : Nat) : List (String × String) → String
  | [] => ""
  | [(k, v)] => tabs depth ++ jsonQuote k ++ ": " ++ v
  | (k, v) :: rest =>
      tabs depth ++ jsonQuote k ++ ": " ++ v ++ ",\n" ++ joinJsonEntries depth rest

/-- Join already-rendered JSON array elements. -/
def joinJsonElems (depth : Nat) : List String → String
  | [] => ""
  | [v] => tabs depth ++ v
  | v :: rest => tabs depth ++ v ++ ",\n" ++ joinJsonElems depth rest

mutual
/-- Go `json.MarshalIndent(v, "", "\t")` of a JSON-decoded value at nesting
depth `depth` (map keys sorted, as Go does). -/
def jsonIndent (depth : Nat) : GoVal → String
  | .str s => jsonQuote s
  | .num n => goItoa n
  | .boolean b => if b then "true" else "false"
  | .null => "null"
  | .arr [] => "[]"
  | .arr (v :: rest) =>
      "[\n" ++ joinJsonElems (depth + 1) (jsonIndentElems (depth + 1) (v :: rest)) ++
      "\n" ++ tabs depth ++ "]"
  | .obj [] => "\x7b\x7d"
  | .obj (e :: rest) =>
      "\x7b\n" ++ joinJsonEntries (depth + 1) (sortByKey (jsonIndentKVs (depth + 1) (e :: rest))) ++
      "\n" ++ tabs depth ++ "\x7d"

def jsonIndentElems (depth : Nat) : List GoVal → List String
  | [] => []
  | v :: rest => jsonIndent depth v :: jsonIndentElems depth rest

def jsonIndentKVs (depth : Nat) : List (String × GoVal) → List (String × String)
  | [] => []
  | (k, v) :: rest => (k, jsonIndent depth v) :: jsonIndentKVs depth rest
end

/-- Assertion `v.(map[string]interface{})` with the comma-ok form: `some` when the
dynamic type matches, `none` otherwise (a nil or mistyped value). -/
def GoVal.asObj : GoVal → Option (List (String × GoVal))
  | .obj entries => some entries
  | _ => none

/-- Assertion `v.([]interface{})` with the comma-ok form. -/
def GoVal.asArr : GoVal → Option (List GoVal)
  | .arr elems => some elems
  | _ => none

/-- Assertion `v.(string)` with the comma-ok form. -/
def GoVal.asStr : GoVal → Option String
  | .str s => some s
  | _ => none

/-- Indexing a `map[string]any` (`m[k]`): a missing key yields the nil
interface, exactly what indexing a nil map yields as well. -/
def mapGet (m : List (String × GoVal)) (k : String) : GoVal :=
  match m.find? (fun e => e.1 = k) with
  | some e => e.2
  | none => .null

/-! ### The critical-line pattern set (checks.go `CriticalPatterns`)

Each RE2 regular expression of the Go slice is embedded as an executable
matcher with `MatchString` semantics (`^`/`$` anchor at text start/end, `(?i)`
is case folding, `\s` is `[\t\n\f\r ]`, `\w` is `[0-9A-Za-z_]`). -/

def isRe2Space (c : Char) : Bool :=
  c = '\t' || c = '\n' || c = (Char.ofNat 12) || c = '\r' || c = ' '

def isWordChar (c : Char) : Bool :=
  ('0' ≤ c && c ≤ '9') || ('A' ≤ c && c ≤ 'Z') || ('a' ≤ c && c ≤ 'z') || c = '_'

/-- Case-folded character equality, for `(?i)` patterns over ASCII letters. -/
def ciEq (a b : Char) : Bool :=
  a.toLower = b.toLower

def ciPrefixOf (pat l : List Char) : Bool :=
  match pat, l with
  | [], _ => true
  | _ :: _, [] => false
  | p :: ps, c :: cs => ciEq p c && ciPrefixOf ps cs

def ciInfixOf (pat : List Char) (l : List Char) : Bool :=
  match l with
  | [] => pat.isEmpty
  | _ :: rest => ciPrefixOf pat l || ciInfixOf pat rest

/-- Is the position right after the first `k` characters of `l` a `\b`
boundary, the preceding character being a word character? -/
def wordBoundaryAfter (l : List Char) (k : Nat) : Bool :=
  match (l.drop k).head? with
  | none => true
  | some c => !isWordChar c

/-- Pattern `(?i)^\s*Command failed:` -/
def critCommandFailed (l : List Char) : Bool :=
  ciPrefixOf "command failed:".data (l.dropWhile isRe2Space)

/-- Pattern `(?i)^\s*(Error|FATAL|CRITICAL)\b` -/
def critErrorWord (l : List Char) : Bool :=
  let t := l.dropWhile isRe2Space
  (ciPrefixOf "error".data t && wordBoundaryAfter t 5) ||
  (ciPrefixOf "fatal".data t && wordBoundaryAfter t 5) ||
  (ciPrefixOf "critical".data t && wordBoundaryAfter t 8)

/-- Pattern `(?i)^\s*Caused by:` -/
def critCausedBy (l : List Char) : Bool :=
  ciPrefixOf "caused by:".data (l.dropWhile isRe2Space)

def isWordDot (c : Char) : Bool :=
  isWordChar c || c = '.'

/-- After at least one `[\w.]` character has been consumed: either `Error:`
starts here, or consume one more `[\w.]` character and continue. -/
def wdErrorScan : List Char → Bool
  | [] => false
  | c :: rest => ciPrefixOf "error:".data (c :: rest) || (isWordDot c && wdErrorScan rest)

/-- Pattern `(?i)^\s*[\w.]+Error:` -/
def critWordError (l : List Char) : Bool :=
  match l.dropWhile isRe2Space with
  | [] => false
  | c :: rest => isWordDot c && wdErrorScan rest

/-- The nine compiled patterns of `CriticalPatterns`, in slice order. -/
def CriticalPatterns : List (List Char → Bool) :=
  [critCommandFailed,
   critErrorWord,
   critCausedBy,
   critWordError,
   fun l => ciInfixOf "permission denied".data l,
   fun l => ciInfixOf "failed".data l,
   fun l => ciInfixOf "exception".data l,
   fun l => ciInfixOf "could not connect".data l,
   fun l => ciInfixOf "timed out".data l]

/-- The inner loop of checks.go lines 127-133: does any critical pattern
match the line? -/
def isCriticalLine (l : List Char) : Bool :=
  CriticalPatterns.any (fun p => p l)

def isTildeSym (c : Char) : Bool :=
  c = '~' || c = '^' || c = '='

/-- Pattern `^\s*[~^=]+\s*$` (checks.go `symbolPattern`). -/
def symbolOnly (l : List Char) : Bool :=
  let t := l.dropWhile isRe2Space
  let run := t.takeWhile isTildeSym
  !run.isEmpty && (t.drop run.length).all isRe2Space

/-! ### ExtractUsefulError (checks.go lines 53-162) -/

/-- Go `fmt.Sprintf("[... %d lines omitted ...]", k)`. -/
def mkOmitMarker (k : Int) : List Char :=
  ("[... " ++ goItoa k ++ " lines omitted ...]").data

/-- The split-and-drop prologue of `ExtractUsefulError` (checks.go lines
58-65): split on newlines, drop a leading empty segment, then drop a
trailing empty segment. -/
def goLinesL (l : List Char) : List (List Char) :=
  let l0 := splitNl l
  let l1 := if l0.head? = some [] then l0.tail else l0
  if l1.getLast? = some [] then l1.dropLast else l1

/-- The prologue `goLinesL` on a `String`. -/
def goLines (s : String) : List (List Char) :=
  goLinesL s.data

/-- Append a tail line (checks.go lines 107-122): trim it and keep it unless
it is empty or symbol-only. -/
def appendIfUseful (useful : List (List Char)) (raw : List Char) : List (List Char) :=
  let t := trimSpace raw
  if t ≠ [] ∧ !symbolOnly t then useful ++ [t] else useful

/-- Flush an omission marker (checks.go lines 89-92, 101-104 and 137-140):
append `[... N lines omitted ...]` when the count is positive. -/
def euFlush (useful : List (List Char)) (omitted : Int) : List (List Char) :=
  if omitted > 0 then useful ++ [mkOmitMarker omitted] else useful

/-- The tail handling of the budget branch (checks.go lines 106-122): append
the trimmed last three input lines, guarded by the Go `int` index
comparisons. -/
def euTail (lines : List (List Char)) (i : Nat) (useful1 : List (List Char)) :
    List (List Char) :=
  let n := lines.length
  let useful2 := if (i : Int) ≤ (n : Int) - 3 then appendIfUseful useful1 (lines.getD (n - 3) []) else useful1
  let useful3 := if (i : Int) ≤ (n : Int) - 2 then appendIfUseful useful2 (lines.getD (n - 2) []) else useful2
  appendIfUseful useful3 (lines.getD (n - 1) [])

/-- The main walk of `ExtractUsefulError` (checks.go lines 80-154) over the
remaining lines `rest = lines[1+i:]`, carrying the retained lines `useful`,
the two-slot context buffer and the skip counter.  Index comparisons use
`Int`, as the Go `int` arithmetic does. -/
def euLoop (lines : List (List Char)) (maxOut : Nat) :
    List (List Char) → Nat → List (List Char) → List (List Char) → Nat → List (List Char)
  | [], _, useful, _, _ => useful
  | line :: rest, i, useful, buffer, cut =>
    let trimmedLine := trimSpace line
    if trimmedLine = [] || symbolOnly trimmedLine then
      euLoop lines maxOut rest (i + 1) useful buffer cut
    else if (i : Int) = (lines.length : Int) - 1 then
      euFlush useful ((cut : Int) - (buffer.length : Int)) ++ buffer ++ [trimmedLine]
    else if maxOut ≤ useful.length then
      euTail lines i (euFlush useful ((cut : Int) + (lines.length : Int) - (i : Int) - 3))
    else if isCriticalLine trimmedLine then
      euLoop lines maxOut rest (i + 1)
        (euFlush useful ((cut : Int) - (buffer.length : Int)) ++ buffer ++ [trimmedLine]) [] 0
    else
      euLoop lines maxOut rest (i + 1) useful
        ((if 2 ≤ buffer.length then buffer.drop 1 else buffer) ++ [trimmedLine]) (cut + 1)

/-- checks.go `ExtractUsefulError`: extract the most useful parts of a
potentially long error message. -/
def ExtractUsefulError (fullMessage : String) (maxOutputLines : Nat) : String :=
  if fullMessage = "" then ""
  else
    let lines := goLines fullMessage
    if lines.length ≤ maxOutputLines then goTrimSpace fullMessage
    else
      let useful := [trimSpace (lines.headD [])]
      String.mk (joinNl (euLoop lines maxOutputLines (lines.drop 1) 0 useful [] 0))

/-- checks.go `ExtractUsefulErrorDefault`: the `maxOutputLines = 8` default. -/
def ExtractUsefulErrorDefault (fullMessage : String) : String :=
  ExtractUsefulError fullMessage 8

/-! ### Data model (models.go) and report (report.go) -/

/-- models.go `LogEntry`.  `Extras` is `none` for a nil map (the log_reader.go
variant of the struct carries an extra timestamp field which none of the
embedded functions read). -/
structure LogEntry where
  Level : String
  Msg : String
  Container : String
  Pod : String
  Extras : Option (List (String × GoVal))

/-- Indexing `line.Extras[k]`: indexing a nil map yields the nil interface. -/
def extrasGet (e : LogEntry) (k : String) : GoVal :=
  match e.Extras with
  | some m => mapGet m k
  | none => .null

/-- models.go `SimpleReport`. -/
structure SimpleReport where
  Errors : List String
  Warnings : List String
  Infos : List String

def emptyReport : SimpleReport :=
  ⟨[], [], []⟩

/-- The pair loop of report.go `formatSimpleMessage` (lines 36-47): walk the
flat variadic field list two at a time, ignoring a trailing unpaired element;
the reserved key `"Message"` is rendered on its own newline-delimited block,
every other key inline as `" | key: value"`. -/
def fsmPairs : List GoVal → String
  | k :: v :: rest =>
    let key := govalRender k
    (if key = "Message" then "\n" ++ key ++ ": " ++ govalRender v ++ "\n"
     else " | " ++ key ++ ": " ++ govalRender v) ++ fsmPairs rest
  | _ => ""

/-- report.go `formatSimpleMessage`. -/
def formatSimpleMessage (msg : String) (fields : List GoVal) : String :=
  if fields.isEmpty then msg else msg ++ fsmPairs fields

/-- report.go `SimpleReport.Error`: append unconditionally. -/
def SimpleReport.Error (r : SimpleReport) (msg : String) (fields : List GoVal) : SimpleReport :=
  { r with Errors := r.Errors ++ [formatSimpleMessage msg fields] }

/-- report.go `SimpleReport.Warning`: skip when the formatted string is
already present (`slices.Contains`), else append. -/
def SimpleReport.Warning (r : SimpleReport) (msg : String) (fields : List GoVal) : SimpleReport :=
  let formatted := formatSimpleMessage msg fields
  if r.Warnings.contains formatted then r
  else { r with Warnings := r.Warnings ++ [formatted] }

/-- report.go `SimpleReport.Info`: append unconditionally. -/
def SimpleReport.Info (r : SimpleReport) (msg : String) (fields : List GoVal) : SimpleReport :=
  { r with Infos := r.Infos ++ [formatSimpleMessage msg fields] }

/-! ### Handler catalog (checks.go lines 164-318)

A Go check function acts on the report only through the three append methods
above, and which calls it makes depends only on the log entry.  Each handler
is therefore embedded as the list of report calls (`Finding`s) its body
makes; `Except.error ()` models a Go panic (a failed unchecked type
assertion).  `applyFindings` replays the calls, so
`applyFindings r (handler e)` is the Go handler body run against `r`. -/

inductive Severity where
  | err
  | warn
  | info

structure Finding where
  sev : Severity
  msg : String
  fields : List GoVal

/-- checks.go `CheckFunc`, with the effect on the report reified. -/
def CheckFunc : Type :=
  LogEntry → Except Unit (List Finding)

/-- Replay one report call. -/
def applyFinding (r : SimpleReport) (f : Finding) : SimpleReport :=
  match f.sev with
  | .err => r.Error f.msg f.fields
  | .warn => r.Warning f.msg f.fields
  | .info => r.Info f.msg f.fields

def applyFindings (r : SimpleReport) : List Finding → SimpleReport
  | [] => r
  | f :: fs => applyFindings (applyFinding r f) fs

def prLimitReached : CheckFunc := fun _ =>
  .ok [⟨.warn, "PR limit reached - skipping PR creation", []⟩]

/-- checks.go `baseBranchDoesNotExist` (lines 169-182). -/
def baseBranchDoesNotExist : CheckFunc := fun line =>
  let generic : Finding :=
    ⟨.err, "Base branch does not exist",
     [.str "Hint", .str "Check `baseBranchPatterns` in renovate.json"]⟩
  match line.Extras with
  | none => .ok [generic]
  | some _ =>
    match (extrasGet line "baseBranch").asStr with
    | some baseBranch =>
      if !goStartsWith baseBranch "/" || !goEndsWith baseBranch "/" then
        .ok [⟨.err, "Base branch does not exist",
              [.str "hint", .str ("baseBranch must be a JS pattern like: /" ++ baseBranch ++ "/")]⟩]
      else .ok [generic]
    | none => .ok [generic]

/-- checks.go `configMigrationNecessary` (lines 185-192).  The unchecked
type assertion `line.Extras["newConfig"].(map[string]interface{})` panics on
a missing or mistyped field; `json.MarshalIndent` cannot fail on a
JSON-decoded value, so the marshal-error branch is never taken. -/
def configMigrationNecessary : CheckFunc := fun line =>
  match (extrasGet line "newConfig").asObj with
  | none => .error ()
  | some cfg =>
    .ok [⟨.warn, "Config migration necessary",
          [.str "New config", .str (jsonIndent 0 (.obj cfg))]⟩]

/-- checks.go `renovateConfigErrors` (lines 195-203).  The unchecked type
assertion `line.Extras["errors"].([]interface{})` panics on a missing or
mistyped field. -/
def renovateConfigErrors : CheckFunc := fun line =>
  match (extrasGet line "errors").asArr with
  | none => .error ()
  | some l =>
    let errs := l.filterMap fun v =>
      match v.asObj with
      | some errMap =>
        some ("\n" ++ govalRenderS (mapGet errMap "topic") ++ ": " ++
              govalRenderS (mapGet errMap "message"))
      | none => none
    .ok [⟨.err, "Found renovate config errors", [.str "Errors", .str (concatAll errs)]⟩]

/-- checks.go `upgradesAwaitingSchedule` (lines 206-225). -/
def upgradesAwaitingSchedule : CheckFunc := fun line =>
  match (extrasGet line "branchesInformation").asArr with
  | none => .ok []
  | some branchesInfo =>
    .ok (branchesInfo.filterMap fun bi =>
      match bi.asObj with
      | none => none
      | some branch =>
        match (mapGet branch "result").asStr with
        | some result =>
          if result = "update-not-scheduled" then
            some ⟨.info, "Upgrade awaiting schedule",
                  [.str "Branch", mapGet branch "branchName",
                   .str "PR No.", mapGet branch "prNo",
                   .str "PR Title", mapGet branch "prTitle"]⟩
          else none
        | none => none)

/-- checks.go `checkForRebaseRequests` (lines 228-231). -/
def checkForRebaseRequests : CheckFunc := fun line =>
  .ok [⟨.info, "PR rebase requested", [.str "Branch", extrasGet line "branch"]⟩]

def isPathChar (c : Char) : Bool :=
  isWordChar c || c = '/' || c = '.' || c = '-'

def fnfLiteral : List Char :=
  ("FileNotFoundError: [Errno 2] No such file or directory: " ++ sq).data

/-- Try the `fileNotFoundRe` pattern at the current position: the literal,
then a nonempty greedy run of `[\w\/\.\-]`, then a closing quote; the run is
the capture. -/
def fnfTryAt (l : List Char) : Option String :=
  if fnfLiteral.isPrefixOf l then
    let rest := l.drop fnfLiteral.length
    let path := rest.takeWhile isPathChar
    if path ≠ [] ∧ (rest.drop path.length).head? = some (Char.ofNat 39) then
      some (String.mk path)
    else none
  else none

/-- Go `fileNotFoundRe.FindStringSubmatch`: the capture of the leftmost match,
if any. -/
def fnfSearch : List Char → Option String
  | [] => none
  | c :: rest =>
    match fnfTryAt (c :: rest) with
    | some p => some p
    | none => fnfSearch rest

def fileNotFoundMatch (message : String) : Option String :=
  fnfSearch message.data

/-- checks.go `rawExecError` (lines 234-264). -/
def rawExecError : CheckFunc := fun line =>
  match (extrasGet line "err").asObj with
  | none => .ok []
  | some errData =>
    let fields : List GoVal :=
      [.str "Branch", extrasGet line "branch", .str "Duration", extrasGet line "durationMs"]
    let fields := match (mapGet errData "options").asObj with
      | some options => fields ++ [.str "Timeout", mapGet options "timeout"]
      | none => fields
    let message := ((mapGet errData "message").asStr).getD ""
    let fields := if goContains message "Failed to download metadata for repo" then
        fields ++ [.str "Hint",
          .str "Possible activation key issue (Failed to download metadata for repo ... Cannot download repomd.xml)"]
      else fields
    let fields := match fileNotFoundMatch message with
      | some path =>
        fields ++ [.str "Hint", .str ("File not found: " ++ path ++ ", check rpms.in.yaml configuration")]
      | none => fields
    let fields := fields ++ [.str "Message", .str (ExtractUsefulErrorDefault message)]
    let fields := fields ++ [.str "\nFull message", .str message]
    .ok [⟨.err, "Error executing command", fields⟩]

/-- checks.go `upgradeCollision` (lines 267-276). -/
def upgradeCollision : CheckFunc := fun line =>
  .ok [⟨.warn, "Upgrade collision can prevent PR from being opened",
        [.str "Dependency Name", extrasGet line "depName",
         .str "Current Value", extrasGet line "currentValue",
         .str "Previous New Value", extrasGet line "previousNewValue",
         .str "This New Value", extrasGet line "thisNewValue"]⟩]

/-- checks.go `platformCommitError` (lines 279-294); `%+v` agrees with `%v`
on the JSON-decoded shapes `task` can hold. -/
def platformCommitError : CheckFunc := fun line =>
  match (extrasGet line "err").asObj with
  | none => .ok []
  | some errData =>
    let errMessage := ((mapGet errData "message").asStr).getD ""
    let task := mapGet errData "task"
    .ok [⟨.err, line.Msg,
          [.str "Branch", extrasGet line "branch",
           .str "Message", .str errMessage,
           .str "Task", .str (govalRender task)]⟩]

/-- checks.go `invalidJSONConfig` (lines 297-304). -/
def invalidJSONConfig : CheckFunc := fun line =>
  .ok [⟨.err, "Invalid JSONC, but parsed using JSON5.",
        [.str "file", extrasGet line "context",
         .str "hint", .str "Either fix the syntax for JSON or change config to JSON5."]⟩]

/-- checks.go `repositoryChangedDuringRenovation` (lines 307-309). -/
def repositoryChangedDuringRenovation : CheckFunc := fun _ =>
  .ok [⟨.err, "Repository has changed during renovation", []⟩]

/-- checks.go `branchErrorDuringRenovation` (lines 312-318). -/
def branchErrorDuringRenovation : CheckFunc := fun line =>
  .ok [⟨.err, "Branch error related to " ++ sq ++ "Repository has changed during renovation" ++ sq,
        [.str "branch", extrasGet line "branch",
         .str "hint", .str "Try to delete this branch manually"]⟩]

/-- The selector registry after `init` (checks.go lines 35-49), in
registration order.  The Go map iteration order is unspecified; the theorems
proved below do not depend on the order. -/
def Selectors : List (String × CheckFunc) :=
  [("Reached PR limit - skipping PR creation", prLimitReached),
   ("Base branch does not exist - skipping", baseBranchDoesNotExist),
   ("Config migration necessary", configMigrationNecessary),
   ("Found renovate config errors", renovateConfigErrors),
   ("branches info extended", upgradesAwaitingSchedule),
   ("PR rebase requested=true", checkForRebaseRequests),
   ("rawExec err", rawExecError),
   ("Ignoring upgrade collision", upgradeCollision),
   ("Platform-native commit: unknown error", platformCommitError),
   ("File contents are invalid JSONC but parse using JSON5", invalidJSONConfig),
   ("Repository has changed during renovation - aborting", repositoryChangedDuringRenovation),
   ("Passing repository-changed error up", branchErrorDuringRenovation)]

/-- The inner selector loop of `ProcessLogsWithMessageChecks`: run every
check whose selector occurs in the message of the entry; a handler panic aborts
the whole classification. -/
def runChecksOnEntry : List (String × CheckFunc) → LogEntry → SimpleReport → Except Unit SimpleReport
  | [], _, r => .ok r
  | (sel, cf) :: rest, e, r =>
    if goContains e.Msg sel then
      match cf e with
      | .error u => .error u
      | .ok fs => runChecksOnEntry rest e (applyFindings r fs)
    else runChecksOnEntry rest e r

/-- The outer entry loop of `ProcessLogsWithMessageChecks`. -/
def runLogs : List LogEntry → SimpleReport → Except Unit SimpleReport
  | [], r => .ok r
  | e :: rest, r =>
    match runChecksOnEntry Selectors e r with
    | .error u => .error u
    | .ok r2 => runLogs rest r2

/-- Go `ProcessLogsWithMessageChecks`: classify a batch of log entries and
return `(errors, warnings, infos, err)`; the returned Go `error` is the
always-`nil` fourth component. -/
def ProcessLogsWithMessageChecks (logs : List LogEntry) :
    Except Unit (List String × List String × List String × Option String) :=
  match runLogs logs emptyReport with
  | .error u => .error u
  | .ok r => .ok (r.Errors, r.Warnings, r.Infos, none)

/-! ### Level-based summary (log_reader.go lines 242-332) -/

/-- log_reader.go `buildErrorMessage`: the message of the entry, extended with the
nested `err.message` (or, failing that, `errorMessage`) detail when present,
always newline-terminated. -/
def buildErrorMessage (e : LogEntry) : String :=
  let viaErr : Option String :=
    match (extrasGet e "err").asObj with
    | some errMap =>
      match (mapGet errMap "message").asStr with
      | some message => some (e.Msg ++ ": " ++ message ++ "\n")
      | none => none
    | none => none
  match viaErr with
  | some s => s
  | none =>
    match (extrasGet e "errorMessage").asStr with
    | some errorMessage => e.Msg ++ ": " ++ errorMessage ++ "\n"
    | none => e.Msg ++ "\n"

/-- Increment `m[k]++` on a Go `map[string]int`, modelled as an association list in
first-insertion order (the Go iteration order is unspecified; the theorems
below do not depend on it). -/
def bumpCount : List (String × Nat) → String → List (String × Nat)
  | [], k => [(k, 1)]
  | (k0, n) :: rest, k =>
    if k0 = k then (k0, n + 1) :: rest else (k0, n) :: bumpCount rest k

/-- One step of the reverse walk of checkLogs (log_reader.go lines 249-259):
`maps = (errorsMap, fatalMap)`. -/
def countStep (maps : List (String × Nat) × List (String × Nat)) (e : LogEntry) :
    List (String × Nat) × List (String × Nat) :=
  if e.Level = "FATAL" then (maps.1, bumpCount maps.2 (buildErrorMessage e))
  else if e.Level = "ERROR" then (bumpCount maps.1 (buildErrorMessage e), maps.2)
  else maps

/-- The `uniqueMessages` list built by the summary closures of checkLogs
(log_reader.go lines 270-278 and 292-300): one rendered entry per counted
message, counted entries rendered with the `Nx `-prefix when the count
exceeds one. -/
def uniqueMessages (errors : List (String × Nat)) : List String :=
  errors.map fun kv =>
    if kv.2 > 1 then goItoa (Int.ofNat kv.2) ++ "x " ++ kv.1 else kv.1

/-- The summary closures of checkLogs (log_reader.go lines 262-303): both are
this function, at label `"ERROR"` respectively `"FATAL"`. -/
def summarize (label : String) (errors : List (String × Nat)) : String :=
  if errors.isEmpty then ""
  else
    let totalCount : Nat := errors.foldl (fun acc kv => acc + kv.2) 0
    goItoa (Int.ofNat totalCount) ++ " " ++ label ++ ":\n" ++
      concatAll (uniqueMessages errors)

/-- The `(errorsMap, fatalMap)` pair built by the reverse walk of checkLogs
(log_reader.go lines 243-259). -/
def levelCounts (logs : List LogEntry) : List (String × Nat) × List (String × Nat) :=
  logs.reverse.foldl countStep ([], [])

/-- log_reader.go `checkLogs`: count ERROR- and FATAL-level messages (walking
the batch newest-first) and build the failure summary.  `none` models the Go
panic of `logs[len(logs)-1]` on an empty batch. -/
def checkLogs (logs : List LogEntry) (simpleReason : String) : Option String :=
  match logs.getLast? with
  | none => none
  | some last =>
    let maps := levelCounts logs
    let errString := summarize "ERROR" maps.1
    let fatalString := summarize "FATAL" maps.2
    let errString1 :=
      if errString = "" ∧ fatalString = "" then "reason: " ++ simpleReason else errString
    some ("Container " ++ last.Container ++ " exited with \n" ++ errString1 ++ " " ++ fatalString)

/-- The per-level count map of `checkLogs`, at level `"ERROR"` or
`"FATAL"`. -/
def levelCountMap (logs : List LogEntry) (lvl : String) : List (String × Nat) :=
  if lvl = "ERROR" then (levelCounts logs).1 else (levelCounts logs).2

/-! ### Derived notions used by the claims -/

/-- A check function invoked on a fresh report in isolation. -/
def runCheckIsolated (cf : CheckFunc) (e : LogEntry) : Except Unit SimpleReport :=
  (cf e).map (applyFindings emptyReport)

/-- The formatted string a report call appends (or deduplicates). -/
def findingStr (f : Finding) : String :=
  formatSimpleMessage f.msg f.fields

/-- The report category a severity lands in. -/
def sevProj (r : SimpleReport) : Severity → List String
  | .err => r.Errors
  | .warn => r.Warnings
  | .info => r.Infos

/-- One call of the report API, for reasoning about arbitrary call
sequences. -/
inductive ReportOp where
  | err (msg : String) (fields : List GoVal)
  | warn (msg : String) (fields : List GoVal)
  | info (msg : String) (fields : List GoVal)

def applyOp (r : SimpleReport) : ReportOp → SimpleReport
  | .err m f => r.Error m f
  | .warn m f => r.Warning m f
  | .info m f => r.Info m f

def runOps : List ReportOp → SimpleReport → SimpleReport
  | [], r => r
  | op :: ops, r => runOps ops (applyOp r op)

/-- Membership-wise inclusion of reports, category by category. -/
def reportLe (r1 r2 : SimpleReport) : Prop :=
  (∀ s ∈ r1.Errors, s ∈ r2.Errors) ∧ (∀ s ∈ r1.Warnings, s ∈ r2.Warnings) ∧
  (∀ s ∈ r1.Infos, s ∈ r2.Infos)

/-- Modelled from the spec: the finding-entry formatting rule in its own
words — each key/value pair in order, a reserved key on its own
newline-delimited block, every other key inline as `" | key: value"`.  Used
to compare the `formatSimpleMessage` of the code against the description of the spec
(which names the reserved key `"message"`; the code reserves `"Message"`). -/
def renderPairSpec (reserved : String) (p : String × GoVal) : String :=
  if p.1 = reserved then "\n" ++ p.1 ++ ": " ++ govalRender p.2 ++ "\n"
  else " | " ++ p.1 ++ ": " ++ govalRender p.2

/-- Modelled from the spec: a finding rendered from a label and key/value
pairs, in the order given. -/
def formatSpec (reserved label : String) (pairs : List (String × GoVal)) : String :=
  label ++ concatAll (pairs.map (renderPairSpec reserved))

/-- The flat variadic argument list that a pair list is passed as. -/
def flattenPairs (pairs : List (String × GoVal)) : List GoVal :=
  pairs.flatMap fun p => [GoVal.str p.1, p.2]

/-! ### Claim C1 -/

/-- C1: the claim says a handler facing a missing or mistyped `extra` field
emits nothing and never aborts classification.  The code violates this:
`configMigrationNecessary` and `renovateConfigErrors` perform unchecked type
assertions, so on a record whose `extra` lacks `newConfig` (resp. `errors`)
the handler panics and `ProcessLogsWithMessageChecks` terminates with a
fatal condition instead of returning a report. -/
theorem c1_unchecked_assertion_panics :
    configMigrationNecessary ⟨"ERROR", "Config migration necessary", "", "", some []⟩ =
      Except.error () ∧
    renovateConfigErrors ⟨"ERROR", "Found renovate config errors", "", "", some []⟩ =
      Except.error () ∧
    ProcessLogsWithMessageChecks [⟨"ERROR", "Config migration necessary", "", "", some []⟩] =
      Except.error () := by
  exact ⟨rfl, rfl, rfl⟩

/-! ### Claim C3 -/

/-- C3: the claim says `compact` output always contains at least one of the
final three non-blank input lines.  It fails on `"a\nb\nc\nd"` with budget 2:
the end-of-input branch compares the range index over `lines[1:]` with
`len(lines)-1`, which that index never attains, so with no critical lines
and the budget never reached the whole tail is dropped and only line 0
survives. -/
theorem c3_tail_dropped :
    ExtractUsefulError "a\nb\nc\nd" 2 = "a" ∧
    goContains (ExtractUsefulError "a\nb\nc\nd" 2) "b" = false ∧
    goContains (ExtractUsefulError "a\nb\nc\nd" 2) "c" = false ∧
    goContains (ExtractUsefulError "a\nb\nc\nd" 2) "d" = false := by
  exact ⟨rfl, by decide, by decide, by decide⟩

/-! ### Claim C7 -/

/-- C7: classifying the single record `{level 50 (ERROR), msg "Base branch
does not exist - skipping", extra.baseBranch = "main"}` yields exactly one
Error finding and nothing else, and its hint recommends the slash-delimited
form `/main/`. -/
theorem c7_base_branch_main :
    ProcessLogsWithMessageChecks
        [⟨"ERROR", "Base branch does not exist - skipping", "", "",
          some [("baseBranch", GoVal.str "main")]⟩] =
      Except.ok
        (["Base branch does not exist | hint: baseBranch must be a JS pattern like: /main/"],
         [], [], none) ∧
    goContains "Base branch does not exist | hint: baseBranch must be a JS pattern like: /main/"
      "/main/" = true := by
  exact ⟨rfl, by decide⟩

/-! ### Claim C8 -/

/-- C8 counterexample: the claim reserves the key `"message"`; the code
reserves `"Message"`.  A finding with key `"message"` is rendered inline,
not on its own newline-delimited block. -/
theorem c8_counterexample :
    formatSimpleMessage "L" [GoVal.str "message", GoVal.str "v"] = "L | message: v" ∧
    formatSimpleMessage "L" [GoVal.str "message", GoVal.str "v"] ≠ "L" ++ "\nmessage: v\n" := by
  exact ⟨rfl, by decide⟩

theorem fsmPairs_flatten (pairs : List (String × GoVal)) :
    fsmPairs (flattenPairs pairs) = concatAll (pairs.map (renderPairSpec "Message")) := by
  induction pairs with
  | nil => rfl
  | cons p ps ih =>
    obtain ⟨k, v⟩ := p
    simp only [flattenPairs, List.flatMap_def, List.map_cons, List.flatten_cons,
      List.append_eq, List.cons_append, List.nil_append, concatAll, fsmPairs,
      renderPairSpec, govalRender] at *
    rw [ih]

/-- C8 amended: the reserved key is `"Message"` (capital M), not
`"message"`: `formatSimpleMessage` renders exactly as the rule of the spec, with
the reserved key on its own newline-delimited block and every other key
inline, in the order the pairs were given. -/
theorem c8_reserved_key_is_capital_message (label : String) (pairs : List (String × GoVal)) :
    formatSimpleMessage label (flattenPairs pairs) = formatSpec "Message" label pairs := by
  cases pairs with
  | nil => simp [formatSimpleMessage, flattenPairs, formatSpec, concatAll]
  | cons p ps =>
    simp only [formatSimpleMessage, formatSpec]
    rw [if_neg (by simp [flattenPairs]), fsmPairs_flatten]

/-! ### Claim C10 -/

/-- C10: whenever `ProcessLogsWithMessageChecks` returns, its Go `error`
result (the fourth component) is nil. -/
theorem c10_error_result_always_nil (logs : List LogEntry)
    (out : List String × List String × List String × Option String)
    (h : ProcessLogsWithMessageChecks logs = Except.ok out) : out.2.2.2 = none := by
  unfold ProcessLogsWithMessageChecks at h
  cases hr : runLogs logs emptyReport with
  | error u => rw [hr] at h; exact absurd h (by simp)
  | ok r => rw [hr] at h; cases h; rfl

/-- Witness for C10 at the empty batch. -/
theorem c10_witness :
    ProcessLogsWithMessageChecks [] = Except.ok ([], [], [], none) ∧
    (([], [], [], none) :
      List String × List String × List String × Option String).2.2.2 = none := by
  exact ⟨rfl, c10_error_result_always_nil [] ([], [], [], none) rfl⟩

/-! ### Claim C2 -/

theorem warnings_nodup_applyOp (r : SimpleReport) (op : ReportOp)
    (h : r.Warnings.Nodup) : (applyOp r op).Warnings.Nodup := by
  cases op with
  | err m f => exact h
  | info m f => exact h
  | warn m f =>
    simp only [applyOp, SimpleReport.Warning]
    by_cases hc : r.Warnings.contains (formatSimpleMessage m f)
    · rw [if_pos hc]; exact h
    · rw [if_neg hc]
      simp only [List.nodup_append, List.nodup_cons, List.nodup_nil]
      refine ⟨h, ⟨by simp, trivial⟩, ?_⟩
      intro a ha hb
      simp only [List.mem_singleton] at hb
      subst hb
      exact hc (by simpa using ha)

theorem warnings_nodup_runOps (ops : List ReportOp) (r : SimpleReport)
    (h : r.Warnings.Nodup) : (runOps ops r).Warnings.Nodup := by
  induction ops generalizing r with
  | nil => exact h
  | cons op ops ih => exact ih _ (warnings_nodup_applyOp r op h)

/-- C2: over any sequence of report calls starting from a fresh report the
warnings never contain two identical formatted strings; a `Warning` call
whose formatted string is already present leaves the report unchanged; and
`Error` / `Info` calls append unconditionally, so those categories may
contain duplicates. -/
theorem c2_warning_dedup (ops : List ReportOp) (r : SimpleReport) (m : String)
    (fs : List GoVal) (hw : formatSimpleMessage m fs ∈ r.Warnings) :
    (runOps ops emptyReport).Warnings.Nodup ∧
    r.Warning m fs = r ∧
    (r.Error m fs).Errors = r.Errors ++ [formatSimpleMessage m fs] ∧
    (r.Info m fs).Infos = r.Infos ++ [formatSimpleMessage m fs] := by
  refine ⟨warnings_nodup_runOps ops emptyReport List.nodup_nil, ?_, rfl, rfl⟩
  simp only [SimpleReport.Warning]
  rw [if_pos (by simpa using hw)]

/-- Witness for C2: two identical `Warning` calls leave a single entry; a
duplicate call on a report already holding the string is the identity. -/
theorem c2_witness :
    (runOps [ReportOp.warn "a" [], ReportOp.warn "a" []] emptyReport).Warnings.Nodup ∧
    SimpleReport.Warning ⟨[], ["x"], []⟩ "x" [] = ⟨[], ["x"], []⟩ ∧
    (SimpleReport.Error ⟨[], ["x"], []⟩ "x" []).Errors = [] ++ [formatSimpleMessage "x" []] ∧
    (SimpleReport.Info ⟨[], ["x"], []⟩ "x" []).Infos = [] ++ [formatSimpleMessage "x" []] :=
  c2_warning_dedup [ReportOp.warn "a" [], ReportOp.warn "a" []] ⟨[], ["x"], []⟩ "x" []
    (by simp [formatSimpleMessage])

/-! ### Claim C4 -/

theorem reportLe_refl (r : SimpleReport) : reportLe r r :=
  ⟨fun _ h => h, fun _ h => h, fun _ h => h⟩

theorem reportLe_trans {r1 r2 r3 : SimpleReport} (h12 : reportLe r1 r2)
    (h23 : reportLe r2 r3) : reportLe r1 r3 :=
  ⟨fun s hs => h23.1 s (h12.1 s hs), fun s hs => h23.2.1 s (h12.2.1 s hs),
   fun s hs => h23.2.2 s (h12.2.2 s hs)⟩

theorem applyFinding_le (r : SimpleReport) (f : Finding) :
    reportLe r (applyFinding r f) := by
  obtain ⟨sv, m, fs⟩ := f
  cases sv with
  | err =>
    exact ⟨fun s hs => List.mem_append_left _ hs, fun _ h => h, fun _ h => h⟩
  | info =>
    exact ⟨fun _ h => h, fun _ h => h, fun s hs => List.mem_append_left _ hs⟩
  | warn =>
    simp only [applyFinding, SimpleReport.Warning]
    by_cases hc : r.Warnings.contains (formatSimpleMessage m fs)
    · rw [if_pos hc]; exact reportLe_refl r
    · rw [if_neg hc]
      exact ⟨fun _ h => h, fun s hs => List.mem_append_left _ hs, fun _ h => h⟩

theorem applyFindings_le (r : SimpleReport) (fs : List Finding) :
    reportLe r (applyFindings r fs) := by
  induction fs generalizing r with
  | nil => exact reportLe_refl r
  | cons f fs ih => exact reportLe_trans (applyFinding_le r f) (ih (applyFinding r f))

theorem applyFinding_mem_self (r : SimpleReport) (f : Finding) :
    findingStr f ∈ sevProj (applyFinding r f) f.sev := by
  obtain ⟨sv, m, fs⟩ := f
  cases sv with
  | err => exact List.mem_append_right _ (List.mem_singleton.mpr rfl)
  | info => exact List.mem_append_right _ (List.mem_singleton.mpr rfl)
  | warn =>
    simp only [applyFinding, SimpleReport.Warning, findingStr, sevProj]
    by_cases hc : r.Warnings.contains (formatSimpleMessage m fs)
    · rw [if_pos hc]; exact (by simpa using hc)
    · rw [if_neg hc]; exact List.mem_append_right _ (List.mem_singleton.mpr rfl)

theorem applyFindings_mem (r : SimpleReport) (fs : List Finding) (f : Finding)
    (hf : f ∈ fs) : findingStr f ∈ sevProj (applyFindings r fs) f.sev := by
  induction fs generalizing r with
  | nil => cases hf
  | cons g gs ih =>
    rcases List.mem_cons.mp hf with h | h
    · subst h
      have h1 := applyFinding_mem_self r f
      have h2 := applyFindings_le (applyFinding r f) gs
      cases hsv : f.sev with
      | err => exact h2.1 _ (by rw [hsv] at h1; exact h1)
      | warn => exact h2.2.1 _ (by rw [hsv] at h1; exact h1)
      | info => exact h2.2.2 _ (by rw [hsv] at h1; exact h1)
    · exact ih (applyFinding r g) h

theorem applyFinding_mem_inv (r : SimpleReport) (f : Finding) (sv : Severity)
    (s : String) (hs : s ∈ sevProj (applyFinding r f) sv) :
    s ∈ sevProj r sv ∨ (f.sev = sv ∧ findingStr f = s) := by
  obtain ⟨fsv, m, fs⟩ := f
  have hwarn : ∀ sv' : Severity,
      s ∈ sevProj (SimpleReport.Warning r m fs) sv' →
      s ∈ sevProj r sv' ∨ (Severity.warn = sv' ∧ formatSimpleMessage m fs = s) := by
    intro sv' hs'
    simp only [SimpleReport.Warning] at hs'
    by_cases hc : r.Warnings.contains (formatSimpleMessage m fs)
    · rw [if_pos hc] at hs'; exact Or.inl hs'
    · rw [if_neg hc] at hs'
      cases sv' with
      | err => exact Or.inl hs'
      | info => exact Or.inl hs'
      | warn =>
        simp only [sevProj] at hs' ⊢
        rcases List.mem_append.mp hs' with h | h
        · exact Or.inl h
        · exact Or.inr ⟨by trivial, (List.mem_singleton.mp h).symm⟩
  cases fsv with
  | warn => exact hwarn sv hs
  | err =>
    cases sv with
    | warn => exact Or.inl hs
    | info => exact Or.inl hs
    | err =>
      simp only [applyFinding, SimpleReport.Error, sevProj] at hs ⊢
      rcases List.mem_append.mp hs with h | h
      · exact Or.inl h
      · exact Or.inr ⟨by trivial, (List.mem_singleton.mp h).symm⟩
  | info =>
    cases sv with
    | warn => exact Or.inl hs
    | err => exact Or.inl hs
    | info =>
      simp only [applyFinding, SimpleReport.Info, sevProj] at hs ⊢
      rcases List.mem_append.mp hs with h | h
      · exact Or.inl h
      · exact Or.inr ⟨by trivial, (List.mem_singleton.mp h).symm⟩

theorem applyFindings_mem_inv (r : SimpleReport) (fs : List Finding)
    (sv : Severity) (s : String) (hs : s ∈ sevProj (applyFindings r fs) sv) :
    s ∈ sevProj r sv ∨ ∃ f ∈ fs, f.sev = sv ∧ findingStr f = s := by
  induction fs generalizing r with
  | nil => exact Or.inl hs
  | cons g gs ih =>
    rcases ih (applyFinding r g) hs with h | ⟨f, hf, hsv, hstr⟩
    · rcases applyFinding_mem_inv r g sv s h with h2 | h2
      · exact Or.inl h2
      · exact Or.inr ⟨g, List.mem_cons_self g gs, h2⟩
    · exact Or.inr ⟨f, List.mem_cons_of_mem g hf, hsv, hstr⟩

theorem runChecksOnEntry_ok_le (sels : List (String × CheckFunc)) (e : LogEntry)
    (r r' : SimpleReport) (h : runChecksOnEntry sels e r = Except.ok r') :
    reportLe r r' := by
  induction sels generalizing r with
  | nil =>
    simp only [runChecksOnEntry] at h
    cases h
    exact reportLe_refl r'
  | cons sc rest ih =>
    obtain ⟨sel, cf⟩ := sc
    simp only [runChecksOnEntry] at h
    by_cases hc : goContains e.Msg sel
    · rw [if_pos hc] at h
      cases hcf : cf e with
      | error u => rw [hcf] at h; cases h
      | ok fs =>
        rw [hcf] at h
        exact reportLe_trans (applyFindings_le r fs) (ih _ h)
    · rw [if_neg hc] at h
      exact ih r h

theorem runChecksOnEntry_sel (sels : List (String × CheckFunc)) (e : LogEntry)
    (t : String) (cf : CheckFunc) (hmem : (t, cf) ∈ sels)
    (hsub : goContains e.Msg t = true) (r r' : SimpleReport)
    (h : runChecksOnEntry sels e r = Except.ok r') :
    ∃ fs, cf e = Except.ok fs ∧ ∀ f ∈ fs, findingStr f ∈ sevProj r' f.sev := by
  induction sels generalizing r with
  | nil => cases hmem
  | cons sc rest ih =>
    rcases List.mem_cons.mp hmem with hh | hh
    · subst hh
      simp only [runChecksOnEntry, if_pos hsub] at h
      cases hcf : cf e with
      | error u => rw [hcf] at h; cases h
      | ok fs =>
        rw [hcf] at h
        refine ⟨fs, rfl, fun f hf => ?_⟩
        have h1 := applyFindings_mem r fs f hf
        have h2 := runChecksOnEntry_ok_le rest e _ r' h
        cases hsv : f.sev with
        | err => exact h2.1 _ (by rw [hsv] at h1; exact h1)
        | warn => exact h2.2.1 _ (by rw [hsv] at h1; exact h1)
        | info => exact h2.2.2 _ (by rw [hsv] at h1; exact h1)
    · obtain ⟨sel0, cf0⟩ := sc
      simp only [runChecksOnEntry] at h
      by_cases hc : goContains e.Msg sel0
      · rw [if_pos hc] at h
        cases hcf : cf0 e with
        | error u => rw [hcf] at h; cases h
        | ok fs0 => rw [hcf] at h; exact ih hh _ h
      · rw [if_neg hc] at h
        exact ih hh r h

theorem runLogs_ok_le (logs : List LogEntry) (r r' : SimpleReport)
    (h : runLogs logs r = Except.ok r') : reportLe r r' := by
  induction logs generalizing r with
  | nil => simp only [runLogs] at h; cases h; exact reportLe_refl r'
  | cons e rest ih =>
    simp only [runLogs] at h
    cases he : runChecksOnEntry Selectors e r with
    | error u => rw [he] at h; cases h
    | ok r2 =>
      rw [he] at h
      exact reportLe_trans (runChecksOnEntry_ok_le Selectors e r r2 he) (ih r2 h)

theorem runLogs_entry (logs : List LogEntry) (e : LogEntry) (he : e ∈ logs)
    (r r' : SimpleReport) (h : runLogs logs r = Except.ok r') :
    ∃ rmid r2, runChecksOnEntry Selectors e rmid = Except.ok r2 ∧ reportLe r2 r' := by
  induction logs generalizing r with
  | nil => cases he
  | cons e0 rest ih =>
    simp only [runLogs] at h
    cases he0 : runChecksOnEntry Selectors e0 r with
    | error u => rw [he0] at h; cases h
    | ok r2 =>
      rw [he0] at h
      rcases List.mem_cons.mp he with hh | hh
      · subst hh
        exact ⟨r, r2, he0, runLogs_ok_le rest r2 r' h⟩
      · exact ih hh r2 h

/-- C4 counterexample: the claim says a record containing a registered
trigger always contributes at least the isolated findings of the handler to the
classification result; but a record may simultaneously contain a trigger
whose handler panics (here `"Config migration necessary"` with no
`newConfig` extra), in which case classification returns no report at all,
so the isolated Warning of the `"Reached PR limit - skipping PR creation"`
trigger appears nowhere. -/
theorem c4_counterexample :
    goContains "Reached PR limit - skipping PR creation Config migration necessary"
      "Reached PR limit - skipping PR creation" = true ∧
    runCheckIsolated prLimitReached
        ⟨"INFO", "Reached PR limit - skipping PR creation Config migration necessary",
         "", "", some []⟩ =
      Except.ok ⟨[], ["PR limit reached - skipping PR creation"], []⟩ ∧
    ProcessLogsWithMessageChecks
        [⟨"INFO", "Reached PR limit - skipping PR creation Config migration necessary",
          "", "", some []⟩] =
      Except.error () := by
  exact ⟨by decide, rfl, rfl⟩

/-- C4 amended: whenever classification over a sequence completes (no
handler panics), then for every registered trigger `t` and every record of
the sequence whose message contains `t`, every finding the handler of `t`
produces on that record in isolation (on a fresh report) occurs in the
corresponding category of the returned report. -/
theorem c4_classification_contains_isolated (t : String) (cf : CheckFunc)
    (hmem : (t, cf) ∈ Selectors) (e : LogEntry)
    (hsub : goContains e.Msg t = true) (logs : List LogEntry) (he : e ∈ logs)
    (out : List String × List String × List String × Option String)
    (hok : ProcessLogsWithMessageChecks logs = Except.ok out)
    (r0 : SimpleReport) (hiso : runCheckIsolated cf e = Except.ok r0) :
    (∀ s ∈ r0.Errors, s ∈ out.1) ∧ (∀ s ∈ r0.Warnings, s ∈ out.2.1) ∧
    (∀ s ∈ r0.Infos, s ∈ out.2.2.1) := by
  unfold ProcessLogsWithMessageChecks at hok
  cases hr : runLogs logs emptyReport with
  | error u => rw [hr] at hok; cases hok
  | ok rEnd =>
    rw [hr] at hok
    cases hok
    obtain ⟨rmid, r2, hrun, hle⟩ := runLogs_entry logs e he emptyReport rEnd hr
    obtain ⟨fs, hcf, hfs⟩ := runChecksOnEntry_sel Selectors e t cf hmem hsub rmid r2 hrun
    unfold runCheckIsolated at hiso
    rw [hcf] at hiso
    simp only [Except.map] at hiso
    cases hiso
    have key : ∀ sv : Severity, ∀ s ∈ sevProj (applyFindings emptyReport fs) sv,
        s ∈ sevProj r2 sv := by
      intro sv s hs
      rcases applyFindings_mem_inv emptyReport fs sv s hs with h | ⟨f, hf, hsv, hstr⟩
      · cases sv <;> simp [sevProj, emptyReport] at h
      · have := hfs f hf
        rw [hsv, hstr] at this
        exact this
    refine ⟨fun s hs => hle.1 s (key .err s hs),
            fun s hs => hle.2.1 s (key .warn s hs),
            fun s hs => hle.2.2 s (key .info s hs)⟩

/-- Witness for C4 at the single-trigger record
`"Reached PR limit - skipping PR creation"`. -/
theorem c4_witness :
    goContains "Reached PR limit - skipping PR creation"
      "Reached PR limit - skipping PR creation" = true ∧
    (∀ s ∈ (⟨[], ["PR limit reached - skipping PR creation"], []⟩ : SimpleReport).Warnings,
      s ∈ (([], ["PR limit reached - skipping PR creation"], [],
            (none : Option String)) :
            List String × List String × List String × Option String).2.1) := by
  refine ⟨by decide, ?_⟩
  exact (c4_classification_contains_isolated
    "Reached PR limit - skipping PR creation" prLimitReached
    (List.mem_cons_self _ _)
    ⟨"INFO", "Reached PR limit - skipping PR creation", "", "", none⟩
    (by decide)
    [⟨"INFO", "Reached PR limit - skipping PR creation", "", "", none⟩]
    (List.mem_cons_self _ _)
    ([], ["PR limit reached - skipping PR creation"], [], none)
    rfl
    ⟨[], ["PR limit reached - skipping PR creation"], []⟩
    rfl).2.1

/-! ### splitNl structure lemmas (towards C5 and C6) -/

theorem splitNl_ne_nil (l : List Char) : splitNl l ≠ [] := by
  induction l with
  | nil => simp [splitNl]
  | cons c rest ih =>
    simp only [splitNl]
    by_cases hc : c = '\n'
    · simp [hc]
    · rw [if_neg hc]
      cases h : splitNl rest with
      | nil => simp
      | cons a as => simp

theorem splitNl_length (l : List Char) : (splitNl l).length = l.count '\n' + 1 := by
  induction l with
  | nil => simp [splitNl]
  | cons c rest ih =>
    simp only [splitNl]
    by_cases hc : c = '\n'
    · subst hc
      rw [if_pos rfl]
      simp only [List.length_cons, ih, List.count_cons_self]
    · rw [if_neg hc]
      cases h : splitNl rest with
      | nil => exact absurd h (splitNl_ne_nil rest)
      | cons a as =>
        rw [h] at ih
        simp only [List.length_cons] at ih ⊢
        have hcount : (c :: rest).count '\n' = rest.count '\n' := by
          simp [List.count_cons, Ne.symm hc]
        omega

theorem splitNl_no_nl (l : List Char) : ∀ p ∈ splitNl l, '\n' ∉ p := by
  induction l with
  | nil => simp [splitNl]
  | cons c rest ih =>
    simp only [splitNl]
    by_cases hc : c = '\n'
    · subst hc
      intro p hp
      rcases List.mem_cons.mp hp with h | h
      · subst h; simp
      · exact ih p h
    · rw [if_neg hc]
      cases h : splitNl rest with
      | nil => exact absurd h (splitNl_ne_nil rest)
      | cons a as =>
        intro p hp
        rcases List.mem_cons.mp hp with hh | hh
        · subst hh
          intro hmem
          rcases List.mem_cons.mp hmem with h2 | h2
          · exact hc h2.symm
          · exact ih a (by rw [h]; exact List.mem_cons_self a as) h2
        · exact ih p (by rw [h]; exact List.mem_cons_of_mem a hh)

theorem splitNl_singleton (p : List Char) (h : '\n' ∉ p) : splitNl p = [p] := by
  induction p with
  | nil => rfl
  | cons c rest ih =>
    have hc : c ≠ '\n' := fun hcon => h (hcon ▸ List.mem_cons_self c rest)
    have hrest : '\n' ∉ rest := fun hcon => h (List.mem_cons_of_mem c hcon)
    simp only [splitNl, if_neg hc, ih hrest]

theorem splitNl_sep (p rest : List Char) (h : '\n' ∉ p) :
    splitNl (p ++ '\n' :: rest) = p :: splitNl rest := by
  induction p with
  | nil => simp [splitNl]
  | cons c q ih =>
    have hc : c ≠ '\n' := fun hcon => h (hcon ▸ List.mem_cons_self c q)
    have hq : '\n' ∉ q := fun hcon => h (List.mem_cons_of_mem c hcon)
    simp only [List.cons_append, splitNl, if_neg hc]
    rw [show q.append ('\n' :: rest) = q ++ '\n' :: rest from rfl, ih hq]

theorem splitNl_joinNl (ps : List (List Char)) (h1 : ps ≠ [])
    (h2 : ∀ p ∈ ps, '\n' ∉ p) : splitNl (joinNl ps) = ps := by
  induction ps with
  | nil => exact absurd rfl h1
  | cons p qs ih =>
    cases qs with
    | nil =>
      show splitNl (joinNl [p]) = [p]
      exact splitNl_singleton p (h2 p (List.mem_cons_self p []))
    | cons q qs' =>
      show splitNl (p ++ '\n' :: joinNl (q :: qs')) = p :: q :: qs'
      rw [splitNl_sep p _ (h2 p (List.mem_cons_self _ _))]
      rw [ih (by simp) (fun r hr => h2 r (List.mem_cons_of_mem p hr))]

theorem splitNl_eq_singleton_empty (l : List Char) (h : splitNl l = [[]]) : l = [] := by
  cases l with
  | nil => rfl
  | cons c rest =>
    simp only [splitNl] at h
    by_cases hc : c = '\n'
    · rw [if_pos hc] at h
      have := splitNl_ne_nil rest
      simp at h
      exact absurd h this
    · rw [if_neg hc] at h
      cases hs : splitNl rest with
      | nil => exact absurd hs (splitNl_ne_nil rest)
      | cons a as => rw [hs] at h; simp at h

theorem splitNl_head_empty_iff (l : List Char) :
    (splitNl l).head? = some [] ↔ (l = [] ∨ l.head? = some '\n') := by
  cases l with
  | nil => simp [splitNl]
  | cons c rest =>
    simp only [splitNl]
    by_cases hc : c = '\n'
    · subst hc; simp
    · rw [if_neg hc]
      cases h : splitNl rest with
      | nil => exact absurd h (splitNl_ne_nil rest)
      | cons a as => simp [hc]

theorem splitNl_getLast_empty_iff (l : List Char) :
    (splitNl l).getLast? = some [] ↔ (l = [] ∨ l.getLast? = some '\n') := by
  induction l with
  | nil => simp [splitNl]
  | cons c rest ih =>
    by_cases hc : c = '\n'
    · subst hc
      have hsp : splitNl ('\n' :: rest) = [] :: splitNl rest := by simp [splitNl]
      rw [hsp]
      cases hr : rest with
      | nil => decide
      | cons d ds =>
        rw [← hr]
        cases hs : splitNl rest with
        | nil => exact absurd hs (splitNl_ne_nil rest)
        | cons a as =>
          rw [List.getLast?_cons_cons, ← hs]
          rw [ih]
          constructor
          · rintro (h0 | h0)
            · rw [h0] at hr; simp at hr
            · right
              rw [hr] at h0 ⊢
              rw [List.getLast?_cons_cons]
              exact h0
          · rintro (h0 | h0)
            · simp [hr] at h0
            · rw [hr] at h0 ⊢
              rw [List.getLast?_cons_cons] at h0
              right; exact h0
    · cases hs : splitNl rest with
      | nil => exact absurd hs (splitNl_ne_nil rest)
      | cons a as =>
        have hsp : splitNl (c :: rest) = (c :: a) :: as := by
          simp only [splitNl, if_neg hc, hs]
        rw [hsp]
        cases has : as with
        | nil =>
          simp only [List.getLast?_singleton]
          constructor
          · intro h0; simp at h0
          · rintro (h0 | h0)
            · simp at h0
            · cases hr : rest with
              | nil =>
                rw [hr] at h0; simp at h0
                exact absurd h0 hc
              | cons d ds =>
                rw [hr] at h0
                rw [List.getLast?_cons_cons] at h0
                have h1 : (splitNl rest).getLast? = some [] := by
                  rw [ih]; right; rw [hr]
                  exact h0
                rw [hs, has] at h1
                simp at h1
                rw [h1, has] at hs
                have := splitNl_eq_singleton_empty rest hs
                rw [this] at hr; simp at hr
        | cons b bs =>
          rw [List.getLast?_cons_cons]
          have hrest_ne : rest ≠ [] := by
            intro h0
            rw [h0] at hs
            simp [splitNl] at hs
            rw [hs.2] at has
            simp at has
          have hlhs : (b :: bs).getLast? = (splitNl rest).getLast? := by
            rw [hs, has, List.getLast?_cons_cons]
          rw [hlhs, ih]
          cases hr : rest with
          | nil => exact absurd hr hrest_ne
          | cons d ds =>
            rw [← hr]
            constructor
            · rintro (h0 | h0)
              · exact absurd h0 hrest_ne
              · right
                rw [hr] at h0 ⊢
                rw [List.getLast?_cons_cons]
                exact h0
            · rintro (h0 | h0)
              · simp [hr] at h0
              · rw [hr] at h0 ⊢
                rw [List.getLast?_cons_cons] at h0
                right; exact h0

/-! ### trimSpace structure lemmas -/

theorem dropWhile_head_false (p : Char → Bool) (l : List Char) (c : Char)
    (h : (l.dropWhile p).head? = some c) : p c = false := by
  induction l with
  | nil => simp [List.dropWhile] at h
  | cons a rest ih =>
    rw [List.dropWhile_cons] at h
    by_cases hp : p a
    · rw [if_pos hp] at h; exact ih h
    · rw [if_neg hp] at h
      simp only [List.head?_cons, Option.some.injEq] at h
      subst h
      exact Bool.eq_false_iff.mpr hp

theorem trimSpace_eq_rdropWhile (l : List Char) :
    trimSpace l = (l.dropWhile isGoSpace).rdropWhile isGoSpace := rfl

theorem trimSpace_head_not_space (l : List Char) (c : Char)
    (h : (trimSpace l).head? = some c) : isGoSpace c = false := by
  have hne : trimSpace l ≠ [] := by
    intro h0; rw [h0] at h; simp at h
  obtain ⟨t, ht⟩ := (List.rdropWhile_prefix isGoSpace (l.dropWhile isGoSpace))
  rw [trimSpace_eq_rdropWhile] at h hne
  have hh : ((l.dropWhile isGoSpace).rdropWhile isGoSpace ++ t).head? = some c := by
    rw [List.head?_append_of_ne_nil _ hne]; exact h
  rw [ht] at hh
  exact dropWhile_head_false isGoSpace l c hh

theorem trimSpace_getLast_not_space (l : List Char) (c : Char)
    (h : (trimSpace l).getLast? = some c) : isGoSpace c = false := by
  have hrev : (trimSpace l).reverse =
      (l.dropWhile isGoSpace).reverse.dropWhile isGoSpace := by
    simp [trimSpace]
  have hh : ((l.dropWhile isGoSpace).reverse.dropWhile isGoSpace).head? = some c := by
    rw [← hrev, List.head?_reverse]; exact h
  exact dropWhile_head_false isGoSpace _ c hh

theorem dropWhile_eq_self_of_head (p : Char → Bool) (l : List Char)
    (h : ∀ c, l.head? = some c → p c = false) : l.dropWhile p = l := by
  cases l with
  | nil => rfl
  | cons a rest =>
    rw [List.dropWhile_cons, if_neg]
    intro hp
    have := h a rfl
    rw [hp] at this
    cases this

theorem trimSpace_idem (l : List Char) : trimSpace (trimSpace l) = trimSpace l := by
  have h1 : (trimSpace l).dropWhile isGoSpace = trimSpace l :=
    dropWhile_eq_self_of_head isGoSpace (trimSpace l) (trimSpace_head_not_space l)
  show ((((trimSpace l).dropWhile isGoSpace).reverse.dropWhile isGoSpace)).reverse = trimSpace l
  rw [h1]
  show (trimSpace l).rdropWhile isGoSpace = trimSpace l
  rw [trimSpace_eq_rdropWhile]
  exact List.rdropWhile_idempotent isGoSpace (l.dropWhile isGoSpace)

theorem count_trim_decomp (l : List Char) :
    l.count '\n' = (l.takeWhile isGoSpace).count '\n' + (trimSpace l).count '\n' +
      ((l.dropWhile isGoSpace).reverse.takeWhile isGoSpace).count '\n' := by
  have h1 : l.count '\n' = (l.takeWhile isGoSpace).count '\n' +
      (l.dropWhile isGoSpace).count '\n' := by
    conv_lhs => rw [← List.takeWhile_append_dropWhile isGoSpace l]
    rw [List.count_append]
  have h2 : (l.dropWhile isGoSpace).count '\n' =
      ((l.dropWhile isGoSpace).reverse.takeWhile isGoSpace).count '\n' +
      ((l.dropWhile isGoSpace).reverse.dropWhile isGoSpace).count '\n' := by
    conv_lhs => rw [← List.count_reverse '\n' (l.dropWhile isGoSpace),
      ← List.takeWhile_append_dropWhile isGoSpace (l.dropWhile isGoSpace).reverse]
    rw [List.count_append]
  have h3 : (trimSpace l).count '\n' =
      ((l.dropWhile isGoSpace).reverse.dropWhile isGoSpace).count '\n' := by
    rw [trimSpace, List.count_reverse]
  omega

theorem head_nl_take_pos (l : List Char) (h : l.head? = some '\n') :
    0 < (l.takeWhile isGoSpace).count '\n' := by
  cases l with
  | nil => simp at h
  | cons a rest =>
    simp only [List.head?_cons, Option.some.injEq] at h
    subst h
    rw [List.takeWhile_cons, if_pos (by decide)]
    simp [List.count_cons]

theorem last_nl_s_pos (l : List Char) (hne : trimSpace l ≠ [])
    (h : l.getLast? = some '\n') :
    0 < ((l.dropWhile isGoSpace).reverse.takeWhile isGoSpace).count '\n' := by
  have hmid : l.dropWhile isGoSpace ≠ [] := by
    intro h0
    apply hne
    rw [trimSpace, h0]
    rfl
  have hlast : (l.dropWhile isGoSpace).getLast? = some '\n' := by
    have hdec : l.takeWhile isGoSpace ++ l.dropWhile isGoSpace = l :=
      List.takeWhile_append_dropWhile isGoSpace l
    rw [← hdec] at h
    rw [List.getLast?_append_of_ne_nil _ hmid] at h
    exact h
  have hrev : (l.dropWhile isGoSpace).reverse.head? = some '\n' := by
    rw [List.head?_reverse]
    exact hlast
  cases hrv : (l.dropWhile isGoSpace).reverse with
  | nil => rw [hrv] at hrev; simp at hrev
  | cons a t =>
    rw [hrv] at hrev
    simp only [List.head?_cons, Option.some.injEq] at hrev
    subst hrev
    rw [List.takeWhile_cons, if_pos (by decide)]
    simp [List.count_cons]

/-! ### The short-circuit inequality: the trimmed text has no more lines
than the split-and-dropped original -/

theorem tail_getLast_of_two (ys : List (List Char)) (h : 2 ≤ ys.length) :
    ys.tail.getLast? = ys.getLast? := by
  cases ys with
  | nil => simp at h
  | cons a ys' =>
    cases ys' with
    | nil => simp at h
    | cons b ys'' => simp [List.getLast?_cons_cons]

theorem goLinesL_trim (l : List Char) (h : trimSpace l ≠ []) :
    goLinesL (trimSpace l) = splitNl (trimSpace l) := by
  have hhead : ¬ (splitNl (trimSpace l)).head? = some [] := by
    intro hcon
    rcases (splitNl_head_empty_iff _).mp hcon with h0 | h0
    · exact h h0
    · have := trimSpace_head_not_space l '\n' h0
      simp [isGoSpace] at this
  have hlast : ¬ (splitNl (trimSpace l)).getLast? = some [] := by
    intro hcon
    rcases (splitNl_getLast_empty_iff _).mp hcon with h0 | h0
    · exact h h0
    · have := trimSpace_getLast_not_space l '\n' h0
      simp [isGoSpace] at this
  simp only [goLinesL]
  rw [if_neg hhead, if_neg hlast]

theorem trim_lines_le (l : List Char) (h : trimSpace l ≠ []) :
    (splitNl (trimSpace l)).length ≤ (goLinesL l).length := by
  have hlen0 : (splitNl l).length = l.count '\n' + 1 := splitNl_length l
  have hlenT : (splitNl (trimSpace l)).length = (trimSpace l).count '\n' + 1 :=
    splitNl_length (trimSpace l)
  have hdecomp := count_trim_decomp l
  have hlne : l ≠ [] := by
    intro h0; apply h; rw [h0]; rfl
  simp only [goLinesL]
  by_cases h1 : (splitNl l).head? = some []
  · have hP : 0 < (l.takeWhile isGoSpace).count '\n' := by
      rcases (splitNl_head_empty_iff l).mp h1 with h0 | h0
      · exact absurd h0 hlne
      · exact head_nl_take_pos l h0
    rw [if_pos h1]
    by_cases h2 : (splitNl l).tail.getLast? = some []
    · rw [if_pos h2]
      have hlen2 : 2 ≤ (splitNl l).length := by omega
      rw [tail_getLast_of_two _ hlen2] at h2
      have hS : 0 < ((l.dropWhile isGoSpace).reverse.takeWhile isGoSpace).count '\n' := by
        rcases (splitNl_getLast_empty_iff l).mp h2 with h0 | h0
        · exact absurd h0 hlne
        · exact last_nl_s_pos l h h0
      rw [List.length_dropLast, List.length_tail]
      omega
    · rw [if_neg h2, List.length_tail]
      omega
  · rw [if_neg h1]
    by_cases h2 : (splitNl l).getLast? = some []
    · rw [if_pos h2]
      have hS : 0 < ((l.dropWhile isGoSpace).reverse.takeWhile isGoSpace).count '\n' := by
        rcases (splitNl_getLast_empty_iff l).mp h2 with h0 | h0
        · exact absurd h0 hlne
        · exact last_nl_s_pos l h h0
      rw [List.length_dropLast]
      omega
    · rw [if_neg h2]
      omega

/-! ### Claim C5 -/

/-- C5: when the line count after the split-and-drop prologue is within the
budget, `ExtractUsefulError` returns the trimmed input unchanged, and a
second application is the identity on that output. -/
theorem c5_short_input_idempotent (s : String) (n : Nat)
    (h : (goLines s).length ≤ n) :
    ExtractUsefulError s n = goTrimSpace s ∧
    ExtractUsefulError (ExtractUsefulError s n) n = ExtractUsefulError s n := by
  have heue_empty : ExtractUsefulError "" n = "" := by
    simp [ExtractUsefulError]
  have hfirst : ExtractUsefulError s n = goTrimSpace s := by
    by_cases hs : s = ""
    · subst hs
      rw [heue_empty]
      decide
    · simp only [ExtractUsefulError]
      rw [if_neg hs, if_pos h]
  refine ⟨hfirst, ?_⟩
  rw [hfirst]
  by_cases htr : trimSpace s.data = []
  · have hempty : goTrimSpace s = "" := by
      simp only [goTrimSpace, htr]
    rw [hempty, heue_empty]
  · have hne : goTrimSpace s ≠ "" := by
      intro hcon
      apply htr
      have := congrArg String.data hcon
      simpa [goTrimSpace] using this
    have hlines : goLines (goTrimSpace s) = splitNl (trimSpace s.data) := by
      show goLinesL (trimSpace s.data) = splitNl (trimSpace s.data)
      exact goLinesL_trim s.data htr
    have hlen : (goLines (goTrimSpace s)).length ≤ n := by
      rw [hlines]
      exact le_trans (trim_lines_le s.data htr) h
    simp only [ExtractUsefulError]
    rw [if_neg hne, if_pos hlen]
    show goTrimSpace (goTrimSpace s) = goTrimSpace s
    simp only [goTrimSpace]
    rw [trimSpace_idem]

/-- Witness for C5 at a two-line input within a budget of 2. -/
theorem c5_witness :
    (goLines "a\nb").length ≤ 2 ∧
    (ExtractUsefulError "a\nb" 2 = goTrimSpace "a\nb" ∧
     ExtractUsefulError (ExtractUsefulError "a\nb" 2) 2 = ExtractUsefulError "a\nb" 2) :=
  ⟨by decide, c5_short_input_idempotent "a\nb" 2 (by decide)⟩

/-! ### Pieces of the compactor output carry no newline (towards C6) -/

theorem natDigits_digit (n : Nat) : ∀ c ∈ natDigits n, 48 ≤ c.toNat ∧ c.toNat ≤ 57 := by
  induction n using Nat.strong_induction_on with
  | _ n ih =>
    rw [natDigits]
    by_cases h : n < 10
    · rw [dif_pos h]
      intro c hc
      simp only [List.mem_singleton] at hc
      subst hc
      have hv : (48 + n).isValidChar := by left; omega
      have : (Char.ofNat (48 + n)).toNat = 48 + n := by
        rw [Char.ofNat, dif_pos hv]; rfl
      omega
    · rw [dif_neg h]
      intro c hc
      rcases List.mem_append.mp hc with h1 | h1
      · exact ih (n / 10) (Nat.div_lt_self (by omega) (by omega)) c h1
      · simp only [List.mem_singleton] at h1
        subst h1
        have hm : n % 10 < 10 := Nat.mod_lt _ (by omega)
        have hv : (48 + n % 10).isValidChar := by left; omega
        have : (Char.ofNat (48 + n % 10)).toNat = 48 + n % 10 := by
          rw [Char.ofNat, dif_pos hv]; rfl
        omega

theorem goItoa_no_nl (k : Int) : '\n' ∉ (goItoa k).data := by
  have hdig : '\n' ∉ natDigits k.natAbs := by
    intro hc
    have := natDigits_digit k.natAbs '\n' hc
    have h10 : ('\n').toNat = 10 := by decide
    omega
  unfold goItoa
  by_cases h : k < 0
  · rw [if_pos h]
    intro hmem
    rcases List.mem_cons.mp hmem with h1 | h1
    · exact absurd h1 (by decide)
    · exact hdig h1
  · rw [if_neg h]
    exact hdig

theorem mkOmitMarker_no_nl (k : Int) : '\n' ∉ mkOmitMarker k := by
  intro hmem
  have hm : '\n' ∈ ("[... ".data ++ (goItoa k).data) ++ " lines omitted ...]".data := hmem
  rcases List.mem_append.mp hm with h1 | h1
  · rcases List.mem_append.mp h1 with h2 | h2
    · exact absurd h2 (by decide)
    · exact goItoa_no_nl k h2
  · exact absurd h1 (by decide)

theorem trimSpace_mem (l : List Char) (c : Char) (h : c ∈ trimSpace l) : c ∈ l := by
  unfold trimSpace at h
  rw [List.mem_reverse] at h
  have h1 : c ∈ (l.dropWhile isGoSpace).reverse :=
    (List.dropWhile_sublist isGoSpace).subset h
  rw [List.mem_reverse] at h1
  exact (List.dropWhile_sublist isGoSpace).subset h1

theorem no_nl_trimSpace (l : List Char) (h : '\n' ∉ l) : '\n' ∉ trimSpace l :=
  fun hc => h (trimSpace_mem l _ hc)

theorem getD_no_nl (lines : List (List Char)) (h : ∀ p ∈ lines, '\n' ∉ p)
    (k : Nat) : '\n' ∉ lines.getD k [] := by
  by_cases hk : k < lines.length
  · have : lines.getD k [] ∈ lines := by
      rw [List.getD_eq_getElem lines [] hk]
      exact List.getElem_mem hk
    exact h _ this
  · rw [List.getD_eq_default lines [] (by omega)]
    simp

theorem goLinesL_mem (l : List Char) (p : List Char) (h : p ∈ goLinesL l) :
    p ∈ splitNl l := by
  simp only [goLinesL] at h
  by_cases h1 : (splitNl l).head? = some []
  · rw [if_pos h1] at h
    by_cases h2 : (splitNl l).tail.getLast? = some []
    · rw [if_pos h2] at h
      exact List.mem_of_mem_tail (List.mem_of_mem_dropLast h)
    · rw [if_neg h2] at h
      exact List.mem_of_mem_tail h
  · rw [if_neg h1] at h
    by_cases h2 : (splitNl l).getLast? = some []
    · rw [if_pos h2] at h
      exact List.mem_of_mem_dropLast h
    · rw [if_neg h2] at h
      exact h

/-! ### Shape lemmas for the three ways the walk extends its output -/

theorem euFlush_spec (u : List (List Char)) (om : Int) (hne : u ≠ [])
    (hunl : ∀ p ∈ u, '\n' ∉ p) :
    euFlush u om ≠ [] ∧ (euFlush u om).length ≤ u.length + 1 ∧
    ∀ p ∈ euFlush u om, '\n' ∉ p := by
  unfold euFlush
  by_cases h : om > 0
  · rw [if_pos h]
    refine ⟨by simp, by simp, fun p hp => ?_⟩
    rcases List.mem_append.mp hp with h1 | h1
    · exact hunl p h1
    · simp only [List.mem_singleton] at h1
      subst h1
      exact mkOmitMarker_no_nl om
  · rw [if_neg h]
    exact ⟨hne, by omega, hunl⟩

theorem appendIfUseful_spec (u : List (List Char)) (raw : List Char)
    (hne : u ≠ []) (hunl : ∀ p ∈ u, '\n' ∉ p) (hraw : '\n' ∉ raw) :
    appendIfUseful u raw ≠ [] ∧
    (appendIfUseful u raw).length ≤ u.length + 1 ∧
    ∀ p ∈ appendIfUseful u raw, '\n' ∉ p := by
  unfold appendIfUseful
  by_cases h : trimSpace raw ≠ [] ∧ !symbolOnly (trimSpace raw)
  · rw [if_pos h]
    refine ⟨by simp, by simp, fun p hp => ?_⟩
    rcases List.mem_append.mp hp with h1 | h1
    · exact hunl p h1
    · simp only [List.mem_singleton] at h1
      subst h1
      exact no_nl_trimSpace raw hraw
  · rw [if_neg h]
    exact ⟨hne, by omega, hunl⟩

theorem flushed_spec (u buffer : List (List Char)) (t : List Char) (om : Int)
    (hne : u ≠ []) (hunl : ∀ p ∈ u, '\n' ∉ p) (hblen : buffer.length ≤ 2)
    (hbnl : ∀ p ∈ buffer, '\n' ∉ p) (ht : '\n' ∉ t) :
    (euFlush u om ++ buffer ++ [t]) ≠ [] ∧
    (euFlush u om ++ buffer ++ [t]).length ≤ u.length + 4 ∧
    ∀ p ∈ (euFlush u om ++ buffer ++ [t]), '\n' ∉ p := by
  obtain ⟨h1, h2, h3⟩ := euFlush_spec u om hne hunl
  refine ⟨by simp, ?_, fun p hp => ?_⟩
  · simp only [List.length_append, List.length_singleton]
    omega
  · rcases List.mem_append.mp hp with hh | hh
    · rcases List.mem_append.mp hh with hg | hg
      · exact h3 p hg
      · exact hbnl p hg
    · simp only [List.mem_singleton] at hh
      subst hh
      exact ht

theorem condAppend_spec (u : List (List Char)) (c : Prop) [Decidable c]
    (raw : List Char) (hne : u ≠ []) (hunl : ∀ p ∈ u, '\n' ∉ p)
    (hraw : '\n' ∉ raw) :
    (if c then appendIfUseful u raw else u) ≠ [] ∧
    (if c then appendIfUseful u raw else u).length ≤ u.length + 1 ∧
    ∀ p ∈ (if c then appendIfUseful u raw else u), '\n' ∉ p := by
  by_cases h : c
  · rw [if_pos h]
    exact appendIfUseful_spec u raw hne hunl hraw
  · rw [if_neg h]
    exact ⟨hne, by omega, hunl⟩

theorem euTail_spec (lines : List (List Char)) (hlines : ∀ p ∈ lines, '\n' ∉ p)
    (i : Nat) (u1 : List (List Char)) (hne : u1 ≠ [])
    (hunl : ∀ p ∈ u1, '\n' ∉ p) :
    euTail lines i u1 ≠ [] ∧ (euTail lines i u1).length ≤ u1.length + 3 ∧
    ∀ p ∈ euTail lines i u1, '\n' ∉ p := by
  simp only [euTail]
  obtain ⟨a1, a2, a3⟩ := condAppend_spec u1 ((i : Int) ≤ (lines.length : Int) - 3)
    (lines.getD (lines.length - 3) []) hne hunl (getD_no_nl lines hlines _)
  obtain ⟨b1, b2, b3⟩ := condAppend_spec _ ((i : Int) ≤ (lines.length : Int) - 2)
    (lines.getD (lines.length - 2) []) a1 a3 (getD_no_nl lines hlines _)
  obtain ⟨c1, c2, c3⟩ := appendIfUseful_spec _
    (lines.getD (lines.length - 1) []) b1 b3 (getD_no_nl lines hlines _)
  exact ⟨c1, by omega, c3⟩

/-! ### The walk invariant: the output never exceeds the budget by more
than the fixed tail/marker overhead -/

theorem euLoop_spec (lines : List (List Char)) (maxOut : Nat)
    (hlines : ∀ p ∈ lines, '\n' ∉ p) (rest : List (List Char)) :
    ∀ (i : Nat) (useful buffer : List (List Char)) (cut : Nat),
      (∀ p ∈ rest, '\n' ∉ p) → useful ≠ [] → useful.length ≤ maxOut + 3 →
      (∀ p ∈ useful, '\n' ∉ p) → buffer.length ≤ 2 → (∀ p ∈ buffer, '\n' ∉ p) →
      euLoop lines maxOut rest i useful buffer cut ≠ [] ∧
      (euLoop lines maxOut rest i useful buffer cut).length ≤ maxOut + 7 ∧
      ∀ p ∈ euLoop lines maxOut rest i useful buffer cut, '\n' ∉ p := by
  induction rest with
  | nil =>
    intro i useful buffer cut _ hne hlen hunl _ _
    simp only [euLoop]
    exact ⟨hne, by omega, hunl⟩
  | cons line rest' ih =>
    intro i useful buffer cut hrest hne hlen hunl hblen hbnl
    have hline : '\n' ∉ line := hrest line (List.mem_cons_self _ _)
    have hrest' : ∀ p ∈ rest', '\n' ∉ p := fun p hp => hrest p (List.mem_cons_of_mem _ hp)
    have htl : '\n' ∉ trimSpace line := no_nl_trimSpace line hline
    simp only [euLoop]
    split
    · exact ih (i + 1) useful buffer cut hrest' hne hlen hunl hblen hbnl
    · split
      · -- end-of-input branch
        obtain ⟨f1, f2, f3⟩ := flushed_spec useful buffer (trimSpace line)
          ((cut : Int) - (buffer.length : Int)) hne hunl hblen hbnl htl
        exact ⟨f1, by omega, f3⟩
      · split
        · -- budget branch
          obtain ⟨g1, g2, g3⟩ := euFlush_spec useful
            ((cut : Int) + (lines.length : Int) - (i : Int) - 3) hne hunl
          obtain ⟨t1, t2, t3⟩ := euTail_spec lines hlines i _ g1 g3
          exact ⟨t1, by omega, t3⟩
        · split
          · -- critical branch
            next hbudget _ =>
            obtain ⟨f1, f2, f3⟩ := flushed_spec useful buffer (trimSpace line)
              ((cut : Int) - (buffer.length : Int)) hne hunl hblen hbnl htl
            have hlt : useful.length < maxOut := by omega
            exact ih (i + 1) _ [] 0 hrest' f1 (by omega) f3 (by simp) (by simp)
          · -- non-critical branch
            have hb1len : (if 2 ≤ buffer.length then buffer.drop 1 else buffer).length ≤ 1 := by
              by_cases h2 : 2 ≤ buffer.length
              · rw [if_pos h2, List.length_drop]; omega
              · rw [if_neg h2]; omega
            have hb1nl : ∀ p ∈ (if 2 ≤ buffer.length then buffer.drop 1 else buffer), '\n' ∉ p := by
              by_cases h2 : 2 ≤ buffer.length
              · rw [if_pos h2]
                exact fun p hp => hbnl p (List.mem_of_mem_drop hp)
              · rw [if_neg h2]
                exact hbnl
            refine ih (i + 1) useful _ (cut + 1) hrest' hne hlen hunl ?_ ?_
            · rw [List.length_append, List.length_singleton]; omega
            · intro p hp
              rcases List.mem_append.mp hp with h1 | h1
              · exact hb1nl p h1
              · simp only [List.mem_singleton] at h1
                subst h1
                exact htl

/-! ### Claim C6 -/

/-- C6: for every input and positive budget `n`, the number of
newline-separated lines of the compactor output is at most `n + 7` — the
budget plus the fixed marker/tail overhead, independent of the input. -/
theorem c6_output_line_bound (s : String) (n : Nat) (h : 0 < n) :
    (splitNl (ExtractUsefulError s n).data).length ≤ n + 7 := by
  by_cases hs : s = ""
  · subst hs
    have : ExtractUsefulError "" n = "" := by simp [ExtractUsefulError]
    rw [this]
    have : splitNl ("" : String).data = [[]] := rfl
    rw [this]
    simp
  · simp only [ExtractUsefulError]
    rw [if_neg hs]
    by_cases hlen : (goLines s).length ≤ n
    · rw [if_pos hlen]
      show (splitNl (trimSpace s.data)).length ≤ n + 7
      by_cases htr : trimSpace s.data = []
      · rw [htr]
        have : splitNl ([] : List Char) = [[]] := rfl
        rw [this]
        simp
      · have h1 := trim_lines_le s.data htr
        have h2 : (goLinesL s.data).length ≤ n := hlen
        omega
    · rw [if_neg hlen]
      have hplines : ∀ p ∈ goLines s, '\n' ∉ p :=
        fun p hp => splitNl_no_nl s.data p (goLinesL_mem s.data p hp)
      have hhd : '\n' ∉ trimSpace ((goLines s).headD []) := by
        apply no_nl_trimSpace
        cases hg : goLines s with
        | nil => simp
        | cons a rest =>
          simp only [List.headD_cons]
          exact hplines a (by rw [hg]; exact List.mem_cons_self _ _)
      obtain ⟨e1, e2, e3⟩ := euLoop_spec (goLines s) n hplines ((goLines s).drop 1)
        0 [trimSpace ((goLines s).headD [])] [] 0
        (fun p hp => hplines p (List.mem_of_mem_drop hp))
        (by simp) (by simp) (by
          intro p hp
          simp only [List.mem_singleton] at hp
          subst hp
          exact hhd)
        (by simp) (by simp)
      show (splitNl (joinNl (euLoop (goLines s) n ((goLines s).drop 1) 0
        [trimSpace ((goLines s).headD [])] [] 0))).length ≤ n + 7
      rw [splitNl_joinNl _ e1 e3]
      exact e2

/-- Witness for C6 at a small input with budget 1. -/
theorem c6_witness :
    (0 : Nat) < 1 ∧ (splitNl (ExtractUsefulError "x" 1).data).length ≤ 1 + 7 :=
  ⟨by decide, c6_output_line_bound "x" 1 (by decide)⟩

/-! ### Claim C9 -/

theorem countStep_fold (logs : List LogEntry) (m1 m2 : List (String × Nat)) :
    logs.foldl countStep (m1, m2) =
      ((logs.filter fun e => e.Level = "ERROR").foldl
          (fun m e => bumpCount m (buildErrorMessage e)) m1,
       (logs.filter fun e => e.Level = "FATAL").foldl
          (fun m e => bumpCount m (buildErrorMessage e)) m2) := by
  induction logs generalizing m1 m2 with
  | nil => rfl
  | cons e rest ih =>
    by_cases hf : e.Level = "FATAL"
    · have he : ¬ e.Level = "ERROR" := by rw [hf]; decide
      simp [List.filter_cons, countStep, hf, he]
      exact ih m1 _
    · by_cases he : e.Level = "ERROR"
      · simp [List.filter_cons, countStep, hf, he]
        exact ih _ m2
      · simp [List.filter_cons, countStep, hf, he]
        exact ih m1 m2

theorem goItoa_two : goItoa (Int.ofNat 2) = "2" := by
  rw [goItoa, if_neg (by decide)]
  show String.mk (natDigits 2) = "2"
  rw [natDigits, dif_pos (by decide : (2 : Nat) < 10)]

theorem bumpCount_filter_ne (l : List (String × Nat)) (k k' : String)
    (hne : k' ≠ k) :
    (bumpCount l k).filter (fun kv => kv.1 = k') = l.filter (fun kv => kv.1 = k') := by
  induction l with
  | nil => simp [bumpCount, List.filter_cons, Ne.symm hne]
  | cons kv rest ih =>
    obtain ⟨k0, n⟩ := kv
    simp only [bumpCount]
    by_cases h0 : k0 = k
    · rw [if_pos h0]
      subst h0
      simp [List.filter_cons, Ne.symm hne]
    · rw [if_neg h0]
      by_cases h1 : k0 = k'
      · simp [List.filter_cons, h1, ih]
      · simp [List.filter_cons, h1, ih]

theorem bumpCount_filter_eq (l : List (String × Nat)) (k : String) :
    (bumpCount l k).filter (fun kv => kv.1 = k) =
      match l.filter (fun kv => kv.1 = k) with
      | [] => [(k, 1)]
      | (k0, n) :: rest => (k0, n + 1) :: rest := by
  induction l with
  | nil => simp [bumpCount, List.filter_cons]
  | cons kv rest ih =>
    obtain ⟨k0, n⟩ := kv
    simp only [bumpCount]
    by_cases h0 : k0 = k
    · rw [if_pos h0]
      subst h0
      simp [List.filter_cons]
    · rw [if_neg h0]
      simp [List.filter_cons, h0, ih]

theorem foldl_bumpCount_filter (msgs : List String) :
    ∀ (acc : List (String × Nat)) (k : String),
      (msgs.foldl bumpCount acc).filter (fun kv => kv.1 = k) =
        match acc.filter (fun kv => kv.1 = k) with
        | [] => if msgs.count k = 0 then [] else [(k, msgs.count k)]
        | (k0, n) :: rest => (k0, n + msgs.count k) :: rest := by
  induction msgs with
  | nil =>
    intro acc k
    simp only [List.foldl_nil, List.count_nil]
    cases hf : acc.filter (fun kv => kv.1 = k) with
    | nil => simp
    | cons kv rest =>
      obtain ⟨k0, n⟩ := kv
      simp
  | cons msg msgs' ih =>
    intro acc k
    simp only [List.foldl_cons]
    rw [ih (bumpCount acc msg) k]
    by_cases hk : msg = k
    · subst hk
      rw [bumpCount_filter_eq]
      have hcount : (msg :: msgs').count msg = msgs'.count msg + 1 := by
        simp [List.count_cons]
      cases hf : acc.filter (fun kv => kv.1 = msg) with
      | nil =>
        simp [hcount, Nat.add_comm]
      | cons kv rest =>
        obtain ⟨k0, n⟩ := kv
        simp only [hcount]
        rw [Nat.add_comm (msgs'.count msg) 1, ← Nat.add_assoc]
    · rw [bumpCount_filter_ne acc msg k (fun h => hk h.symm)]
      have hcc : (msg :: msgs').count k = msgs'.count k := by
        simp [List.count_cons, Ne.symm hk]
      rw [hcc]

theorem levelCountMap_filter (logs : List LogEntry) (lvl m : String)
    (hlvl : lvl = "ERROR" ∨ lvl = "FATAL")
    (hcount : ((logs.filter fun e => e.Level = lvl).map buildErrorMessage).count m = 2) :
    (levelCountMap logs lvl).filter (fun kv => kv.1 = m) = [(m, 2)] := by
  have hrevcount : ∀ p : LogEntry → Bool,
      ((logs.reverse.filter p).map buildErrorMessage).count m =
      ((logs.filter p).map buildErrorMessage).count m := by
    intro p
    rw [List.filter_reverse, List.map_reverse, List.count_reverse]
  have hmain : ∀ p : LogEntry → Bool,
      ((logs.filter p).map buildErrorMessage).count m = 2 →
      ((logs.reverse.filter p).foldl
          (fun mm e => bumpCount mm (buildErrorMessage e)) []).filter
        (fun kv => kv.1 = m) = [(m, 2)] := by
    intro p hp
    rw [← List.foldl_map buildErrorMessage bumpCount]
    rw [foldl_bumpCount_filter]
    simp only [List.filter_nil]
    rw [hrevcount p, hp]
    simp
  rcases hlvl with rfl | rfl
  · show ((levelCounts logs).1).filter (fun kv => kv.1 = m) = [(m, 2)]
    unfold levelCounts
    rw [countStep_fold]
    exact hmain _ hcount
  · show ((levelCounts logs).2).filter (fun kv => kv.1 = m) = [(m, 2)]
    unfold levelCounts
    rw [countStep_fold]
    exact hmain _ hcount

theorem listInfixOf_nil (l : List Char) : listInfixOf [] l = true := by
  cases l with
  | nil => rfl
  | cons c rest => simp [listInfixOf, List.isPrefixOf]

theorem listPrefixOf_self (l : List Char) : l.isPrefixOf l = true := by
  induction l with
  | nil => rfl
  | cons c rest ih => simp [List.isPrefixOf, ih]

theorem listPrefixOf_append (sub l b : List Char) (h : sub.isPrefixOf l = true) :
    sub.isPrefixOf (l ++ b) = true := by
  induction sub generalizing l with
  | nil =>
    cases hlb : l ++ b with
    | nil => rfl
    | cons c rest => rfl
  | cons s ss ih =>
    cases l with
    | nil => simp [List.isPrefixOf] at h
    | cons c l' =>
      simp only [List.isPrefixOf, Bool.and_eq_true] at h
      simp only [List.cons_append, List.isPrefixOf, Bool.and_eq_true]
      exact ⟨h.1, ih l' h.2⟩

theorem listInfixOf_append_right (sub a b : List Char)
    (h : listInfixOf sub b = true) : listInfixOf sub (a ++ b) = true := by
  induction a with
  | nil => simpa using h
  | cons c a' ih =>
    simp only [List.cons_append, listInfixOf, Bool.or_eq_true]
    exact Or.inr ih

theorem listInfixOf_append_left (sub a b : List Char)
    (h : listInfixOf sub a = true) : listInfixOf sub (a ++ b) = true := by
  induction a with
  | nil =>
    simp only [listInfixOf, List.isEmpty_iff] at h
    subst h
    exact listInfixOf_nil (b)
  | cons c a' ih =>
    simp only [listInfixOf, Bool.or_eq_true] at h
    simp only [List.cons_append, listInfixOf, Bool.or_eq_true]
    rcases h with h | h
    · exact Or.inl (listPrefixOf_append sub (c :: a') b h)
    · exact Or.inr (ih h)

theorem goContains_self (s : String) : goContains s s = true := by
  show listInfixOf s.data s.data = true
  cases hd : s.data with
  | nil => rfl
  | cons c rest => simp [listInfixOf, listPrefixOf_self]

theorem goContains_append_left (a b sub : String)
    (h : goContains a sub = true) : goContains (a ++ b) sub = true := by
  show listInfixOf sub.data (a.data ++ b.data) = true
  exact listInfixOf_append_left sub.data a.data b.data h

theorem goContains_append_right (a b sub : String)
    (h : goContains b sub = true) : goContains (a ++ b) sub = true := by
  show listInfixOf sub.data (a.data ++ b.data) = true
  exact listInfixOf_append_right sub.data a.data b.data h

theorem concatAll_contains (l : List String) (x : String) (h : x ∈ l) :
    goContains (concatAll l) x = true := by
  induction l with
  | nil => cases h
  | cons y rest ih =>
    rcases List.mem_cons.mp h with hh | hh
    · subst hh
      exact goContains_append_left x (concatAll rest) x (goContains_self x)
    · exact goContains_append_right y (concatAll rest) x (ih hh)

theorem natDigits_ne_nil (n : Nat) : natDigits n ≠ [] := by
  rw [natDigits]
  by_cases h : n < 10
  · rw [dif_pos h]; simp
  · rw [dif_neg h]; simp

theorem summarize_contains (label : String) (errors : List (String × Nat))
    (x : String) (h : x ∈ uniqueMessages errors) :
    goContains (summarize label errors) x = true := by
  have hne : ¬ errors.isEmpty = true := by
    cases errors with
    | nil => simp [uniqueMessages] at h
    | cons kv rest => simp
  simp only [summarize]
  rw [if_neg hne]
  exact goContains_append_right _ _ x (concatAll_contains (uniqueMessages errors) x h)

theorem summarize_ne_empty (label : String) (errors : List (String × Nat))
    (hne : errors ≠ []) : summarize label errors ≠ "" := by
  simp only [summarize]
  rw [if_neg (by simpa using hne)]
  intro hcon
  have hd := congrArg String.data hcon
  have hsplit : (goItoa (Int.ofNat (errors.foldl (fun acc kv => acc + kv.2) 0))).data ++
      (" ".data ++ (label.data ++ (":\n".data ++ (concatAll (uniqueMessages errors)).data))) = [] := by
    simpa [List.append_assoc] using hd
  rcases List.append_eq_nil.mp hsplit with ⟨h1, _⟩
  have : (goItoa (Int.ofNat (errors.foldl (fun acc kv => acc + kv.2) 0))).data ≠ [] := by
    simp only [goItoa]
    rw [if_neg (by simp)]
    exact natDigits_ne_nil _
  exact this h1

/-- C9: for every non-empty batch in which the built message of some
ERROR-level (or FATAL-level) entry occurs exactly twice at its level, the
count map of `checkLogs` for that level aggregates the message into the
single entry `(m, 2)` rather than two separate entries; that entry is
rendered in the summary entry list as `"2x " ++ m`; and the summary string
`checkLogs` produces contains `"2x " ++ m`. -/
theorem c9_duplicate_error_counted (logs : List LogEntry) (reason m lvl : String)
    (hlvl : lvl = "ERROR" ∨ lvl = "FATAL") (hne : logs ≠ [])
    (hcount : ((logs.filter fun e => e.Level = lvl).map buildErrorMessage).count m = 2) :
    (levelCountMap logs lvl).filter (fun kv => kv.1 = m) = [(m, 2)] ∧
    ("2x " ++ m) ∈ uniqueMessages (levelCountMap logs lvl) ∧
    ∃ s, checkLogs logs reason = some s ∧ goContains s ("2x " ++ m) = true := by
  have hfilter := levelCountMap_filter logs lvl m hlvl hcount
  have hmem : (m, 2) ∈ levelCountMap logs lvl := by
    have h0 : (m, 2) ∈ (levelCountMap logs lvl).filter (fun kv => kv.1 = m) := by
      rw [hfilter]
      exact List.mem_singleton.mpr rfl
    exact List.mem_of_mem_filter h0
  have humem : ("2x " ++ m) ∈ uniqueMessages (levelCountMap logs lvl) := by
    refine List.mem_map.mpr ⟨(m, 2), hmem, ?_⟩
    show (if (2 : Nat) > 1 then goItoa (Int.ofNat 2) ++ "x " ++ m else m) = "2x " ++ m
    rw [if_pos (by decide), goItoa_two,
      show ("2" : String) ++ "x " = "2x " from by decide]
  refine ⟨hfilter, humem, ?_⟩
  obtain ⟨last, hg⟩ : ∃ last, logs.getLast? = some last := by
    cases hg0 : logs.getLast? with
    | none =>
      rw [List.getLast?_eq_none_iff] at hg0
      exact absurd hg0 hne
    | some x => exact ⟨x, rfl⟩
  simp only [checkLogs, hg]
  refine ⟨_, rfl, ?_⟩
  rcases hlvl with rfl | rfl
  · have humem1 : ("2x " ++ m) ∈ uniqueMessages (levelCounts logs).1 := by
      simpa [levelCountMap] using humem
    have hmem1 : (m, 2) ∈ (levelCounts logs).1 := by
      simpa [levelCountMap] using hmem
    have hserr : summarize "ERROR" (levelCounts logs).1 ≠ "" :=
      summarize_ne_empty "ERROR" _ (List.ne_nil_of_mem hmem1)
    rw [if_neg (fun hcon => hserr hcon.1)]
    apply goContains_append_left
    apply goContains_append_left
    apply goContains_append_right
    exact summarize_contains "ERROR" _ _ humem1
  · have humem2 : ("2x " ++ m) ∈ uniqueMessages (levelCounts logs).2 := by
      simpa [levelCountMap] using humem
    apply goContains_append_right
    exact summarize_contains "FATAL" _ _ humem2

/-- Witness for C9 at a batch of two identical ERROR entries. -/
theorem c9_witness :
    (("ERROR" = "ERROR" ∨ "ERROR" = "FATAL") ∧
     ([⟨"ERROR", "boom", "c", "", none⟩, ⟨"ERROR", "boom", "c", "", none⟩] :
       List LogEntry) ≠ [] ∧
     ((([⟨"ERROR", "boom", "c", "", none⟩, ⟨"ERROR", "boom", "c", "", none⟩] :
        List LogEntry).filter fun e => e.Level = "ERROR").map
          buildErrorMessage).count "boom\n" = 2) ∧
    ((levelCountMap [⟨"ERROR", "boom", "c", "", none⟩, ⟨"ERROR", "boom", "c", "", none⟩]
        "ERROR").filter (fun kv => kv.1 = "boom\n") = [("boom\n", 2)] ∧
     ("2x " ++ "boom\n") ∈ uniqueMessages
       (levelCountMap [⟨"ERROR", "boom", "c", "", none⟩, ⟨"ERROR", "boom", "c", "", none⟩]
         "ERROR") ∧
     ∃ s, checkLogs [⟨"ERROR", "boom", "c", "", none⟩, ⟨"ERROR", "boom", "c", "", none⟩]
            "r" = some s ∧
          goContains s ("2x " ++ "boom\n") = true) :=
  ⟨⟨Or.inl rfl, by simp, by decide⟩,
   c9_duplicate_error_counted
     [⟨"ERROR", "boom", "c", "", none⟩, ⟨"ERROR", "boom", "c", "", none⟩]
     "r" "boom\n" "ERROR" (Or.inl rfl) (by simp) (by decide)⟩

end Doctor
